import Mathlib

/-! Luhn filter (`luhn.c`): embedding and verification.

A shallow embedding of `src/luhn.c`.

* Bytes (`char`) are natural numbers; the only bytes the program tells apart
  are the ASCII digits `'0'..'9'` (48..57), the space (32), the hyphen (45)
  and the mask `'X'` (88).
* Buffers (`char[]`) are `List Nat`; `buf[i]` is `buf.getD i 0` and
  `buf[i] = v` is `buf.set i v`.
* Indices (`int`, `size_t`) are unbounded naturals.  Every call of `filter`
  in the program has `length ≤ BUFFER_SIZE = 32768`, far below `INT_MAX`, so
  no index arithmetic wraps.  The signed cursors `anchor` and `mark` that
  run down to `-1` are represented by their successor (`anchor + 1`,
  `mark + 1`), which is a natural number.
-/

namespace Luhn

/-! ## Constants -/

/-- `#define MIN_DIGITS 14` -/
def MIN_DIGITS : Nat := 14

/-- `#define MAX_DIGITS 16` -/
def MAX_DIGITS : Nat := 16

/-- `#define BUFFER_SIZE (32*1024)` -/
def BUFFER_SIZE : Nat := 32 * 1024

/-- `int static LUHN_SUM_LOOKUP[] = { 0, 2, 4, 6, 8, 1, 3, 5, 7, 9 };` -/
def LUHN_SUM_LOOKUP : List Nat := [0, 2, 4, 6, 8, 1, 3, 5, 7, 9]

/-- The `isdigit` of `<ctype.h>` in the C locale: the bytes `'0'..'9'`. -/
def isdigit (c : Nat) : Bool := decide (48 ≤ c) && decide (c ≤ 57)

/-! ## `luhn_digit` -/

/-- The source function
`int luhn_digit(int digitPos, char cValue)`:
`value = cValue - '0'; return digitPos % 2 == 0 ? LUHN_SUM_LOOKUP[value] : value;`.
It is only ever called on a byte for which `isdigit` holds, so `value` is in
`0..9` and the truncated subtraction agrees with the C one. -/
def luhn_digit (digitPos : Nat) (cValue : Nat) : Nat :=
  let value := cValue - 48
  if digitPos % 2 = 0 then LUHN_SUM_LOOKUP.getD value 0 else value

/-! ## `filter` -/

/-- The inner loop of `filter`,
`while (--mark >= 0 && digitsConsidered < MAX_DIGITS) { ... }`.
The first argument is the value of `mark` *before* the decrement `--mark`
(so `0` means the decrement yields `-1` and the loop ends).  The state is
`digitsConsidered`, `luhn_sum`, `startMark`, `safe_anchor`; the result is
the final `(startMark, safe_anchor)`. -/
def walk (input : List Nat) :
    Nat → Nat → Nat → Nat → Nat → Nat × Nat
  | 0, _, _, startMark, safe_anchor => (startMark, safe_anchor)
  | mark + 1, digitsConsidered, luhn_sum, startMark, safe_anchor =>
    if digitsConsidered < MAX_DIGITS then
      if isdigit (input.getD mark 0) then
        let digitsConsidered1 := digitsConsidered + 1
        let luhn_sum1 := luhn_sum + luhn_digit digitsConsidered1 (input.getD mark 0)
        let startMark1 :=
          if MIN_DIGITS ≤ digitsConsidered1 ∧ luhn_sum1 % 10 = 0 then mark else startMark
        walk input mark digitsConsidered1 luhn_sum1 startMark1 safe_anchor
      else if input.getD mark 0 ≠ 32 ∧ input.getD mark 0 ≠ 45 then
        (startMark, if safe_anchor = 0 then mark + 1 else safe_anchor)
      else
        let startMark1 :=
          if MIN_DIGITS ≤ digitsConsidered ∧ luhn_sum % 10 = 0 then mark else startMark
        walk input mark digitsConsidered luhn_sum startMark1 safe_anchor
    else (startMark, safe_anchor)

/-- The redaction loop of `filter`,
`for (; startMark <= anchor; startMark++) if (isdigit(input[startMark])) output[startMark] = 'X';`.
The first argument is the number of iterations left, `anchor + 1 - startMark`. -/
def redact (input : List Nat) : Nat → Nat → List Nat → List Nat
  | 0, _, output => output
  | count + 1, startMark, output =>
    redact input count (startMark + 1)
      (if isdigit (input.getD startMark 0) then output.set startMark 88 else output)

/-- The outer loop of `filter`, `for (; anchor >= 0; anchor--) { ... }`.
The first argument is `anchor + 1`.  The state is `output`, `saw_digit`,
`safe_anchor`. -/
def scan (input : List Nat) : Nat → List Nat → Bool → Nat → List Nat × Bool × Nat
  | 0, output, saw_digit, safe_anchor => (output, saw_digit, safe_anchor)
  | anchor + 1, output, saw_digit, safe_anchor =>
    if isdigit (input.getD anchor 0) then
      let r := walk input anchor 1 (luhn_digit 1 (input.getD anchor 0)) (anchor + 1) safe_anchor
      scan input anchor (redact input (anchor + 1 - r.1) r.1 output) true r.2
    else if safe_anchor = 0 ∧ input.getD anchor 0 ≠ 32 ∧ input.getD anchor 0 ≠ 45 then
      scan input anchor output saw_digit (anchor + 1)
    else
      scan input anchor output saw_digit safe_anchor

/-- The source function
`size_t filter(char output[], char input[], size_t length)`.  It returns the
output buffer after the scan together with the returned index
`(saw_digit == 1) ? safe_anchor : length`. -/
def filter (output input : List Nat) (length : Nat) : List Nat × Nat :=
  let r := scan input length output false 0
  (r.1, if r.2.1 then r.2.2 else length)

/-- The redacted text `filter` produces from `x` when the output buffer starts
as a copy of `x`. -/
def redacted (x : List Nat) : List Nat := (filter x x x.length).1

/-- The index `filter` returns on `x` when the output buffer starts as a copy
of `x`. -/
def safeAnchor (x : List Nat) : Nat := (filter x x x.length).2

/-! ## `main`: the pump -/

/-- Overwrite `src.length` bytes of `buf` starting at index `off`: the effect of
`read(0, &buf[off], ..)`, `memcpy(&buf[off], src, len)` and
`memmove(&buf[off], src, len)` on the destination array. -/
def blit (buf : List Nat) (off : Nat) (src : List Nat) : List Nat :=
  buf.take off ++ src ++ buf.drop (off + src.length)

/-- The `len` bytes of `buf` from index `off`: the source region of a
`memcpy` or `memmove`, and the bytes a `write(1, buf + off, len)` sends. -/
def region (buf : List Nat) (off len : Nat) : List Nat :=
  (buf.drop off).take len

/-- The variables of `main` that live across loop iterations, together with
everything written to file descriptor 1 so far. -/
structure Pump where
  /-- The global `char input_buffer[BUFFER_SIZE]`. -/
  input_buffer : List Nat
  /-- The global `char output_buffer[BUFFER_SIZE]`. -/
  output_buffer : List Nat
  /-- The local `size_t start_pad`. -/
  start_pad : Nat
  /-- All bytes passed to `write(1, ..)` so far, in order. -/
  written : List Nat

/-- How a run of `main` ends. -/
inductive Outcome where
  /-- The end of the input was reached and `main` returned; the bytes written. -/
  | finished (written : List Nat)
  /-- The sanity check `start_pad == BUFFER_SIZE` failed and `exit(1)` was
  called; the bytes written before. -/
  | capacityError (written : List Nat)
  /-- The next chunk is longer than the `BUFFER_SIZE - start_pad` bytes that
  `read` was asked for, so `read` cannot have returned it. -/
  | unreadable
  deriving DecidableEq

/-- The code after the loop of `main`:
`if (start_pad > 0) write(1, output_buffer, start_pad);`. -/
def finish (st : Pump) : Outcome :=
  Outcome.finished
    (if 0 < st.start_pad then st.written ++ region st.output_buffer 0 st.start_pad
     else st.written)

/-- One pass through the body of the loop of `main`, after `read` has delivered
`chunk` into `&input_buffer[start_pad]`: the `memcpy` into the output buffer,
the call of `filter` on the whole valid region, the `write` of
`output_buffer[0..safe_anchor)` when `safe_anchor > 0`, the update of
`start_pad`, and the two `memmove`s that bring the retained tail to the front
of the buffers.  The unsigned subtraction `start_pad + length - safe_anchor`
never wraps, because `filter` returns at most its `length` argument. -/
def nextPump (st : Pump) (chunk : List Nat) : Pump :=
  let length := chunk.length
  let input_buffer := blit st.input_buffer st.start_pad chunk
  let output_buffer :=
    blit st.output_buffer st.start_pad (region input_buffer st.start_pad length)
  let r := filter output_buffer input_buffer (length + st.start_pad)
  let safe_anchor := r.2
  let written :=
    if 0 < safe_anchor then st.written ++ region r.1 0 safe_anchor else st.written
  let start_pad := st.start_pad + length - safe_anchor
  { input_buffer := blit input_buffer 0 (region input_buffer safe_anchor start_pad)
    output_buffer := blit r.1 0 (region r.1 safe_anchor start_pad)
    start_pad := start_pad
    written := written }

/-- The loop of `main`, with the buffer size as a parameter `C` and the
successive results of `read` given as a list of chunks (successful reads and
writes only; a write is taken to send all its bytes).  The end of the list,
like an empty chunk, is `read` returning `0`.  After the body the sanity check
`start_pad == BUFFER_SIZE` ends the run with an error; the program makes this
check just before the two `memmove`s of the body, whose effect is not
observable once it exits. -/
def pumpLoop (C : Nat) : List (List Nat) → Pump → Outcome
  | [], st => finish st
  | chunk :: rest, st =>
    if chunk.length = 0 then finish st
    else if C - st.start_pad < chunk.length then Outcome.unreadable
    else if (nextPump st chunk).start_pad = C then
      Outcome.capacityError (nextPump st chunk).written
    else pumpLoop C rest (nextPump st chunk)

/-- The state of `main` before the loop: both global buffers zero-filled,
`start_pad = 0`, nothing written. -/
def initPump (C : Nat) : Pump :=
  { input_buffer := List.replicate C 0
    output_buffer := List.replicate C 0
    start_pad := 0
    written := [] }

/-- The program `main` run on the chunk sequence `chunks` with buffer size `C`
(`C = BUFFER_SIZE` in the source). -/
def pump (C : Nat) (chunks : List (List Nat)) : Outcome :=
  pumpLoop C chunks (initPump C)

/-! ## Sample inputs -/

/-- The text `56613959932537` of the header comment of `luhn.c`. -/
def sample14 : List Nat := [53, 54, 54, 49, 51, 57, 53, 57, 57, 51, 50, 53, 51, 55]

/-- The text `4111 1111 1111 1111`. -/
def sample16 : List Nat :=
  [52, 49, 49, 49, 32, 49, 49, 49, 49, 32, 49, 49, 49, 49, 32, 49, 49, 49, 49]

/-- The text `1234567890123`. -/
def sample13 : List Nat := [49, 50, 51, 52, 53, 54, 55, 56, 57, 48, 49, 50, 51]

/-- The text `no digits here`. -/
def sampleText : List Nat :=
  [110, 111, 32, 100, 105, 103, 105, 116, 115, 32, 104, 101, 114, 101]

/-- The text `1256613959932537`: sixteen digits that fail the Luhn check as a
whole while their last fourteen pass it. -/
def sampleTail14 : List Nat :=
  [49, 50, 53, 54, 54, 49, 51, 57, 53, 57, 57, 51, 50, 53, 51, 55]

/-- The text `1856613959932537`: sixteen digits that pass the Luhn check, and
whose last fourteen pass it too. -/
def sampleBoth : List Nat :=
  [49, 56, 53, 54, 54, 49, 51, 57, 53, 57, 57, 51, 50, 53, 51, 55]

/-- The text `1234 5678 9012 3457`: sixteen digits none of whose stretches of
14, 15 or 16 digits passes the Luhn check. -/
def sampleNoLuhn : List Nat :=
  [49, 50, 51, 52, 32, 53, 54, 55, 56, 32, 57, 48, 49, 50, 32, 51, 52, 53, 55]

/-- The text `a 56613959932537;1` cut into three chunks. -/
def sampleChunks : List (List Nat) :=
  [[97, 32, 53, 54], [54, 49, 51, 57, 53, 57, 57, 51, 50, 53, 51, 55, 59], [49]]

/-- The text `a XXXXXXXXXXXXXX;1`. -/
def sampleChunksOut : List Nat :=
  [97, 32, 88, 88, 88, 88, 88, 88, 88, 88, 88, 88, 88, 88, 88, 88, 59, 49]

/-! ## Declarative description of the masking -/

/-- A byte that may belong to a candidate run: a digit, a space or a hyphen. -/
def isRunByte (c : Nat) : Bool := isdigit c || (c == 32 || c == 45)

/-- The digits among `input[s..p]` (both ends included), rightmost first. -/
def digitsOf (input : List Nat) (s p : Nat) : List Nat :=
  (((input.take (p + 1)).drop s).filter isdigit).reverse

/-- The Luhn weight as the specification words it: at an odd position the
digit itself, at an even position the digit doubled and then the sum of the
decimal digits of the double. -/
def specWeight (k : Nat) (c : Nat) : Nat :=
  if k % 2 = 1 then c - 48 else (2 * (c - 48)) / 10 + (2 * (c - 48)) % 10

/-- The Luhn sum of a list of digit bytes whose head stands at position `k`
(positions are counted from the right, the rightmost digit has position 1). -/
def luhnSum : Nat → List Nat → Nat
  | _, [] => 0
  | k, c :: cs => specWeight k c + luhnSum (k + 1) cs

/-- The stretch `input[s..p]` is a checksum-valid candidate: it ends in a
digit, holds only digits, spaces and hyphens, has between 14 and 16 digits,
and the Luhn sum of its digits is divisible by 10. -/
def Window (input : List Nat) (s p : Nat) : Prop :=
  s ≤ p ∧ p < input.length ∧ isdigit (input.getD p 0) = true ∧
  (∀ j, s ≤ j → j ≤ p → isRunByte (input.getD j 0) = true) ∧
  MIN_DIGITS ≤ (digitsOf input s p).length ∧
  (digitsOf input s p).length ≤ MAX_DIGITS ∧
  luhnSum 1 (digitsOf input s p) % 10 = 0

/-- Position `i` holds a digit that lies in a checksum-valid candidate whose
last digit is at an index below `k`. -/
def Masked (input : List Nat) (k i : Nat) : Prop :=
  isdigit (input.getD i 0) = true ∧
  ∃ s p, s ≤ i ∧ i ≤ p ∧ p < k ∧ Window input s p

/-- The candidate condition on `input[s..p]` without the index bounds. -/
def Good (input : List Nat) (p s : Nat) : Prop :=
  (∀ j, s ≤ j → j ≤ p → isRunByte (input.getD j 0) = true) ∧
  MIN_DIGITS ≤ (digitsOf input s p).length ∧
  (digitsOf input s p).length ≤ MAX_DIGITS ∧
  luhnSum 1 (digitsOf input s p) % 10 = 0

/-- One past the index of the rightmost byte of `input[0..k)` that is neither a
digit, a space nor a hyphen; `0` when there is no such byte. -/
def lastDelim (input : List Nat) : Nat → Nat
  | 0 => 0
  | k + 1 => if isRunByte (input.getD k 0) then lastDelim input k else k + 1

/-- The loop invariant of `main` after the stream `S` has been read: the
buffers have their full size, the bytes written and the retained tail make up
the redaction of `S`, the input buffer holds the unwritten tail of `S`, and no
candidate can reach from the retained tail into the part already written. -/
structure PumpInv (C : Nat) (S : List Nat) (st : Pump) : Prop where
  hib : st.input_buffer.length = C
  hob : st.output_buffer.length = C
  hpad : st.start_pad ≤ C
  hlen : st.written.length + st.start_pad = S.length
  hin : ∀ j, j < st.start_pad →
    st.input_buffer.getD j 0 = S.getD (j + st.written.length) 0
  hout : ∀ j, j < st.start_pad →
    st.output_buffer.getD j 0 = (redacted S).getD (j + st.written.length) 0
  hwr : ∀ j, j < st.written.length → st.written.getD j 0 = (redacted S).getD j 0
  hbd : ∃ b, b ≤ st.written.length ∧ (b = 0 ∨ isRunByte (S.getD (b - 1) 0) = false) ∧
    ∀ j, b ≤ j → j < st.written.length → isdigit (S.getD j 0) = false

/-! ## The scan with ghost counters -/

/-- The inner loop of `filter` as in `walk`, with two ghost results added that
the program does not compute: the list of pairs `(anchor, mark)`, one for each
pass through the body of the `while` loop, and the number of times the
assignment `safe_anchor = mark+1` is executed. -/
def walkT (input : List Nat) (anchor : Nat) :
    Nat → Nat → Nat → Nat → Nat → (Nat × Nat) × List (Nat × Nat) × Nat
  | 0, _, _, startMark, safe_anchor => ((startMark, safe_anchor), [], 0)
  | mark + 1, digitsConsidered, luhn_sum, startMark, safe_anchor =>
    if digitsConsidered < MAX_DIGITS then
      if isdigit (input.getD mark 0) then
        let digitsConsidered1 := digitsConsidered + 1
        let luhn_sum1 := luhn_sum + luhn_digit digitsConsidered1 (input.getD mark 0)
        let startMark1 :=
          if MIN_DIGITS ≤ digitsConsidered1 ∧ luhn_sum1 % 10 = 0 then mark else startMark
        let r := walkT input anchor mark digitsConsidered1 luhn_sum1 startMark1 safe_anchor
        (r.1, (anchor, mark) :: r.2.1, r.2.2)
      else if input.getD mark 0 ≠ 32 ∧ input.getD mark 0 ≠ 45 then
        ((startMark, if safe_anchor = 0 then mark + 1 else safe_anchor),
          [(anchor, mark)], if safe_anchor = 0 then 1 else 0)
      else
        let startMark1 :=
          if MIN_DIGITS ≤ digitsConsidered ∧ luhn_sum % 10 = 0 then mark else startMark
        let r := walkT input anchor mark digitsConsidered luhn_sum startMark1 safe_anchor
        (r.1, (anchor, mark) :: r.2.1, r.2.2)
    else ((startMark, safe_anchor), [], 0)

/-- The outer loop of `filter` as in `scan`, with the ghost results of `walkT`
collected over all anchors; the count of assignments also counts the
assignment `safe_anchor = anchor+1` of the outer loop. -/
def scanT (input : List Nat) :
    Nat → List Nat → Bool → Nat → (List Nat × Bool × Nat) × List (Nat × Nat) × Nat
  | 0, output, saw_digit, safe_anchor => ((output, saw_digit, safe_anchor), [], 0)
  | anchor + 1, output, saw_digit, safe_anchor =>
    if isdigit (input.getD anchor 0) then
      let w := walkT input anchor anchor 1 (luhn_digit 1 (input.getD anchor 0)) (anchor + 1)
        safe_anchor
      let r := scanT input anchor (redact input (anchor + 1 - w.1.1) w.1.1 output) true w.1.2
      (r.1, w.2.1 ++ r.2.1, w.2.2 + r.2.2)
    else if safe_anchor = 0 ∧ input.getD anchor 0 ≠ 32 ∧ input.getD anchor 0 ≠ 45 then
      let r := scanT input anchor output saw_digit (anchor + 1)
      (r.1, r.2.1, 1 + r.2.2)
    else
      scanT input anchor output saw_digit safe_anchor

/-- The passes through the body of the inner loop made by one call
`filter(output, input, length)`, as pairs `(anchor, mark)`. -/
def filterVisits (output input : List Nat) (length : Nat) : List (Nat × Nat) :=
  (scanT input length output false 0).2.1

/-- The number of assignments to `safe_anchor` executed by one call
`filter(output, input, length)`. -/
def filterAssigns (output input : List Nat) (length : Nat) : Nat :=
  (scanT input length output false 0).2.2

/-- The marks visited by an inner walk that starts below index `mark` with
`digitsConsidered` digits counted: the control flow of `walk` alone. -/
def walkMarks (input : List Nat) : Nat → Nat → List Nat
  | 0, _ => []
  | mark + 1, digitsConsidered =>
    if digitsConsidered < MAX_DIGITS then
      if isdigit (input.getD mark 0) then mark :: walkMarks input mark (digitsConsidered + 1)
      else if input.getD mark 0 ≠ 32 ∧ input.getD mark 0 ≠ 45 then [mark]
      else mark :: walkMarks input mark digitsConsidered
    else []

/-! ## States of the pump -/

/-- The value `safe_anchor` that the loop body of `main` gets from `filter` when
`read` delivers `chunk` in state `st`. -/
def scanAnchor (st : Pump) (chunk : List Nat) : Nat :=
  (filter
    (blit st.output_buffer st.start_pad
      (region (blit st.input_buffer st.start_pad chunk) st.start_pad chunk.length))
    (blit st.input_buffer st.start_pad chunk) (chunk.length + st.start_pad)).2

/-- The state of `main` at the head of its loop after the reads `chunks`,
starting from `st`; `none` when a chunk is empty (end of input), is longer
than what `read` was asked for, or the run stops with the capacity error. -/
def pumpStateAfter (C : Nat) : List (List Nat) → Pump → Option Pump
  | [], st => some st
  | chunk :: rest, st =>
    if chunk.length = 0 then none
    else if C - st.start_pad < chunk.length then none
    else if (nextPump st chunk).start_pad = C then none
    else pumpStateAfter C rest (nextPump st chunk)

/-! ## More sample inputs -/

/-- The text `1;`. -/
def sampleDigitDelim : List Nat := [49, 59]

/-- The text of a single space. -/
def sampleSpace : List Nat := [32]

/-- The text ` 111;` read as ` 111` and then `;`. -/
def sampleSplitA : List (List Nat) := [[32, 49, 49, 49], [59]]

/-- The text ` 111;` read as a space and then `111;`. -/
def sampleSplitB : List (List Nat) := [[32], [49, 49, 49, 59]]

/-- The text `1;23;4` read as `1;2` and then `3;4`. -/
def sampleShortRuns : List (List Nat) := [[49, 59, 50], [51, 59, 52]]

/-- The text `1; ` read as one chunk: the pass writes `1;` and retains the
space. -/
def sampleRetainSpace : List (List Nat) := [[49, 59, 32]]

/-! ## Basic facts -/

theorem isdigit_iff (c : Nat) : isdigit c = true ↔ 48 ≤ c ∧ c ≤ 57 := by
  simp [isdigit]

theorem isRunByte_of_isdigit {c : Nat} (h : isdigit c = true) : isRunByte c = true := by
  simp [isRunByte, h]

theorem luhn_digit_eq_specWeight (k c : Nat) (h : isdigit c = true) :
    luhn_digit k c = specWeight k c := by
  rw [isdigit_iff] at h
  obtain ⟨h1, h2⟩ := h
  rcases Nat.mod_two_eq_zero_or_one k with hk | hk
  · simp only [luhn_digit, specWeight, hk, LUHN_SUM_LOOKUP]
    interval_cases c <;> rfl
  · simp only [luhn_digit, specWeight, hk]
    simp

theorem luhnSum_append (k : Nat) (xs : List Nat) (c : Nat) :
    luhnSum k (xs ++ [c]) = luhnSum k xs + specWeight (k + xs.length) c := by
  induction xs generalizing k with
  | nil => simp [luhnSum]
  | cons x xs ih =>
    have h1 : (x :: xs) ++ [c] = x :: (xs ++ [c]) := rfl
    have h2 : k + 1 + xs.length = k + (x :: xs).length := by
      simp only [List.length_cons]; omega
    rw [h1, luhnSum, luhnSum, ih, h2]; omega

theorem getD_eq_getElem (l : List Nat) (i : Nat) (h : i < l.length) :
    l.getD i 0 = l[i] := by
  simp [List.getD, List.getElem?_eq_getElem h]

/-- Extending the stretch by one byte on the left. -/
theorem digitsOf_step (input : List Nat) (m p : Nat) (hm : m ≤ p) (hp : p < input.length) :
    digitsOf input m p =
      digitsOf input (m + 1) p ++
        (if isdigit (input.getD m 0) then [input.getD m 0] else []) := by
  unfold digitsOf
  have hlen : m < (input.take (p + 1)).length := by
    simp [List.length_take]; omega
  rw [List.drop_eq_getElem_cons hlen]
  have hget : (input.take (p + 1))[m] = input.getD m 0 := by
    rw [getD_eq_getElem input m (by omega)]
    simp [List.getElem_take]
  rw [hget, List.filter_cons]
  split <;> simp

theorem digitsOf_self (input : List Nat) (p : Nat) (hp : p < input.length)
    (hd : isdigit (input.getD p 0) = true) :
    digitsOf input p p = [input.getD p 0] := by
  unfold digitsOf
  have hlen : p < (input.take (p + 1)).length := by
    simp [List.length_take]; omega
  rw [List.drop_eq_getElem_cons hlen]
  have hget : (input.take (p + 1))[p] = input.getD p 0 := by
    rw [getD_eq_getElem input p hp]
    simp [List.getElem_take]
  have hnil : List.drop (p + 1) (List.take (p + 1) input) = [] := by
    apply List.drop_eq_nil_of_le
    simp [List.length_take]
  rw [hget, hnil, List.filter_cons, hd]
  rfl

theorem digitsOf_length_step (input : List Nat) (m p : Nat) (hm : m ≤ p)
    (hp : p < input.length) :
    (digitsOf input m p).length =
      (digitsOf input (m + 1) p).length + (if isdigit (input.getD m 0) then 1 else 0) := by
  rw [digitsOf_step input m p hm hp]
  split <;> simp

theorem digitsOf_length_le (input : List Nat) (p : Nat) (hp : p < input.length) :
    ∀ d s, s + d ≤ p → (digitsOf input (s + d) p).length ≤ (digitsOf input s p).length := by
  intro d
  induction d with
  | zero => intro s _; exact Nat.le_refl _
  | succ d ih =>
    intro s hs
    have h1 := ih (s + 1) (by omega)
    have h2 := digitsOf_length_step input s p (by omega) hp
    have h3 : s + 1 + d = s + (d + 1) := by omega
    rw [h3] at h1
    omega

/-! ## The inner walk -/

theorem walk_succ_full (input : List Nat) (m dc sum sm sa : Nat) (h : ¬ dc < MAX_DIGITS) :
    walk input (m + 1) dc sum sm sa = (sm, sa) := by
  rw [walk, if_neg h]

theorem walk_succ_digit (input : List Nat) (m dc sum sm sa : Nat) (h : dc < MAX_DIGITS)
    (hd : isdigit (input.getD m 0) = true) :
    walk input (m + 1) dc sum sm sa =
      walk input m (dc + 1) (sum + luhn_digit (dc + 1) (input.getD m 0))
        (if MIN_DIGITS ≤ dc + 1 ∧ (sum + luhn_digit (dc + 1) (input.getD m 0)) % 10 = 0
          then m else sm) sa := by
  rw [walk, if_pos h, if_pos hd]

theorem walk_succ_delim (input : List Nat) (m dc sum sm sa : Nat) (h : dc < MAX_DIGITS)
    (hd : ¬ isdigit (input.getD m 0) = true)
    (hs : input.getD m 0 ≠ 32 ∧ input.getD m 0 ≠ 45) :
    walk input (m + 1) dc sum sm sa = (sm, if sa = 0 then m + 1 else sa) := by
  rw [walk, if_pos h, if_neg hd, if_pos hs]

theorem walk_succ_sep (input : List Nat) (m dc sum sm sa : Nat) (h : dc < MAX_DIGITS)
    (hd : ¬ isdigit (input.getD m 0) = true)
    (hs : ¬ (input.getD m 0 ≠ 32 ∧ input.getD m 0 ≠ 45)) :
    walk input (m + 1) dc sum sm sa =
      walk input m dc sum (if MIN_DIGITS ≤ dc ∧ sum % 10 = 0 then m else sm) sa := by
  rw [walk, if_pos h, if_neg hd, if_neg hs]

theorem isRunByte_of_sep {c : Nat} (hs : ¬ (c ≠ 32 ∧ c ≠ 45)) : isRunByte c = true := by
  have : c = 32 ∨ c = 45 := by
    by_contra hc
    push_neg at hc
    exact hs hc
  rcases this with h | h <;> rw [h] <;> rfl

theorem not_isRunByte_of_delim {c : Nat} (hd : ¬ isdigit c = true) (hs : c ≠ 32 ∧ c ≠ 45) :
    ¬ isRunByte c = true := by
  simp only [isRunByte, Bool.or_eq_true, beq_iff_eq]
  rintro (h | h | h)
  · exact hd h
  · exact hs.1 h
  · exact hs.2 h

theorem walk_fst_le (input : List Nat) :
    ∀ m dc sum sm sa,
      (walk input m dc sum sm sa).1 = sm ∨ (walk input m dc sum sm sa).1 < m := by
  intro m
  induction m with
  | zero => intro dc sum sm sa; left; rfl
  | succ m ih =>
    intro dc sum sm sa
    by_cases h1 : dc < MAX_DIGITS
    · by_cases h2 : isdigit (input.getD m 0) = true
      · rw [walk_succ_digit input m dc sum sm sa h1 h2]
        rcases ih (dc + 1) (sum + luhn_digit (dc + 1) (input.getD m 0))
          (if MIN_DIGITS ≤ dc + 1 ∧ (sum + luhn_digit (dc + 1) (input.getD m 0)) % 10 = 0
            then m else sm) sa with h | h
        · rw [h]
          split_ifs
          · right; omega
          · left; rfl
        · right; omega
      · by_cases h3 : input.getD m 0 ≠ 32 ∧ input.getD m 0 ≠ 45
        · rw [walk_succ_delim input m dc sum sm sa h1 h2 h3]
          left; rfl
        · rw [walk_succ_sep input m dc sum sm sa h1 h2 h3]
          rcases ih dc sum (if MIN_DIGITS ≤ dc ∧ sum % 10 = 0 then m else sm) sa with h | h
          · rw [h]
            split_ifs
            · right; omega
            · left; rfl
          · right; omega
    · rw [walk_succ_full input m dc sum sm sa h1]
      left; rfl

theorem walk_sound (input : List Nat) (p : Nat) (hp : p < input.length) :
    ∀ m dc sum sm sa, m ≤ p →
      (∀ j, m ≤ j → j ≤ p → isRunByte (input.getD j 0) = true) →
      dc = (digitsOf input m p).length →
      sum = luhnSum 1 (digitsOf input m p) →
      (sm = p + 1 ∨ (sm ≤ p ∧ Good input p sm)) →
      ((walk input m dc sum sm sa).1 = p + 1 ∨
        ((walk input m dc sum sm sa).1 ≤ p ∧ Good input p (walk input m dc sum sm sa).1)) := by
  intro m
  induction m with
  | zero => intro dc sum sm sa _ _ _ _ h; exact h
  | succ m ih =>
    intro dc sum sm sa hm hrun hdc hsum hsm
    have hstep := digitsOf_step input m p (by omega) hp
    by_cases h1 : dc < MAX_DIGITS
    · by_cases h2 : isdigit (input.getD m 0) = true
      · rw [walk_succ_digit input m dc sum sm sa h1 h2]
        rw [if_pos h2] at hstep
        have hrun2 : ∀ j, m ≤ j → j ≤ p → isRunByte (input.getD j 0) = true := by
          intro j hj1 hj2
          rcases Nat.eq_or_lt_of_le hj1 with h | h
          · rw [← h]; exact isRunByte_of_isdigit h2
          · exact hrun j h hj2
        have hdc2 : dc + 1 = (digitsOf input m p).length := by
          rw [hstep, hdc]; simp
        have hsum2 : sum + luhn_digit (dc + 1) (input.getD m 0)
            = luhnSum 1 (digitsOf input m p) := by
          rw [hstep, luhnSum_append, luhn_digit_eq_specWeight _ _ h2, hsum, hdc,
            Nat.add_comm 1]
        apply ih _ _ _ _ (by omega) hrun2 hdc2 hsum2
        split_ifs with h3
        · right
          refine ⟨by omega, hrun2, ?_, ?_, ?_⟩
          · rw [← hdc2]; exact h3.1
          · rw [← hdc2]; exact h1
          · rw [← hsum2]; exact h3.2
        · exact hsm
      · by_cases h3 : input.getD m 0 ≠ 32 ∧ input.getD m 0 ≠ 45
        · rw [walk_succ_delim input m dc sum sm sa h1 h2 h3]
          exact hsm
        · rw [walk_succ_sep input m dc sum sm sa h1 h2 h3]
          rw [if_neg h2] at hstep
          have hrun2 : ∀ j, m ≤ j → j ≤ p → isRunByte (input.getD j 0) = true := by
            intro j hj1 hj2
            rcases Nat.eq_or_lt_of_le hj1 with h | h
            · rw [← h]; exact isRunByte_of_sep h3
            · exact hrun j h hj2
          have hdc2 : dc = (digitsOf input m p).length := by
            rw [hstep, hdc]; simp
          have hsum2 : sum = luhnSum 1 (digitsOf input m p) := by
            rw [hstep, hsum]; simp
          apply ih _ _ _ _ (by omega) hrun2 hdc2 hsum2
          split_ifs with h5
          · right
            refine ⟨by omega, hrun2, ?_, ?_, ?_⟩
            · rw [← hdc2]; exact h5.1
            · rw [← hdc2]; exact Nat.le_of_lt h1
            · rw [← hsum2]; exact h5.2
          · exact hsm
    · rw [walk_succ_full input m dc sum sm sa h1]
      exact hsm

theorem walk_complete (input : List Nat) (p : Nat) (hp : p < input.length) :
    ∀ m dc sum sm sa, m ≤ p →
      dc = (digitsOf input m p).length →
      sum = luhnSum 1 (digitsOf input m p) →
      ∀ s, s < m → isdigit (input.getD s 0) = true → Good input p s →
        (walk input m dc sum sm sa).1 ≤ s := by
  intro m
  induction m with
  | zero => intro dc sum sm sa _ _ _ s hs; omega
  | succ m ih =>
    intro dc sum sm sa hm hdc hsum s hs hsd hgood
    have hstep := digitsOf_step input m p (by omega) hp
    have hrunm : isRunByte (input.getD m 0) = true := hgood.1 m (by omega) (by omega)
    have h1 : dc < MAX_DIGITS := by
      have h5 := digitsOf_length_le input p hp (m + 1 - (s + 1)) (s + 1) (by omega)
      have h6 : s + 1 + (m + 1 - (s + 1)) = m + 1 := by omega
      rw [h6] at h5
      have h7 := digitsOf_length_step input s p (by omega) hp
      rw [if_pos hsd] at h7
      have h8 := hgood.2.2.1
      omega
    by_cases h2 : isdigit (input.getD m 0) = true
    · rw [walk_succ_digit input m dc sum sm sa h1 h2]
      rw [if_pos h2] at hstep
      have hdc2 : dc + 1 = (digitsOf input m p).length := by
        rw [hstep, hdc]; simp
      have hsum2 : sum + luhn_digit (dc + 1) (input.getD m 0)
          = luhnSum 1 (digitsOf input m p) := by
        rw [hstep, luhnSum_append, luhn_digit_eq_specWeight _ _ h2, hsum, hdc,
          Nat.add_comm 1]
      rcases Nat.eq_or_lt_of_le (Nat.le_of_lt_succ hs) with h | h
      · subst h
        have hc : MIN_DIGITS ≤ dc + 1 ∧
            (sum + luhn_digit (dc + 1) (input.getD s 0)) % 10 = 0 := by
          refine ⟨?_, ?_⟩
          · rw [hdc2]; exact hgood.2.1
          · rw [hsum2]; exact hgood.2.2.2
        rw [if_pos hc]
        rcases walk_fst_le input s (dc + 1)
          (sum + luhn_digit (dc + 1) (input.getD s 0)) s sa with h | h
        · omega
        · omega
      · exact ih _ _ _ _ (by omega) hdc2 hsum2 s h hsd hgood
    · by_cases h3 : input.getD m 0 ≠ 32 ∧ input.getD m 0 ≠ 45
      · exact absurd hrunm (not_isRunByte_of_delim h2 h3)
      · rw [walk_succ_sep input m dc sum sm sa h1 h2 h3]
        rw [if_neg h2] at hstep
        have hdc2 : dc = (digitsOf input m p).length := by
          rw [hstep, hdc]; simp
        have hsum2 : sum = luhnSum 1 (digitsOf input m p) := by
          rw [hstep, hsum]; simp
        have hne : s ≠ m := by
          intro h; rw [h] at hsd; exact h2 hsd
        exact ih _ _ _ _ (by omega) hdc2 hsum2 s (by omega) hsd hgood

/-- Below a digit inside a stretch there is a digit at which the stretch can
be made to start without losing any of its digits. -/
theorem first_digit (input : List Nat) (p : Nat) (hp : p < input.length) (i : Nat)
    (hip : i ≤ p) (hi : isdigit (input.getD i 0) = true) :
    ∀ d s, s + d = i →
      ∃ t, s ≤ t ∧ t ≤ i ∧ isdigit (input.getD t 0) = true ∧
        digitsOf input t p = digitsOf input s p := by
  intro d
  induction d with
  | zero =>
    intro s hs
    exact ⟨s, Nat.le_refl _, by omega, by rw [show s = i by omega]; exact hi, rfl⟩
  | succ d ih =>
    intro s hs
    by_cases h : isdigit (input.getD s 0) = true
    · exact ⟨s, Nat.le_refl _, by omega, h, rfl⟩
    · obtain ⟨t, ht1, ht2, ht3, ht4⟩ := ih (s + 1) (by omega)
      refine ⟨t, by omega, ht2, ht3, ?_⟩
      rw [ht4, digitsOf_step input s p (by omega) hp, if_neg h]
      simp

theorem Window_iff_good (input : List Nat) (s p : Nat) :
    Window input s p ↔
      s ≤ p ∧ p < input.length ∧ isdigit (input.getD p 0) = true ∧ Good input p s :=
  Iff.rfl

/-- What one anchor masks: the digits of the valid candidates that end at it. -/
theorem anchor_mask (input : List Nat) (p : Nat) (hp : p < input.length)
    (hd : isdigit (input.getD p 0) = true) (sa i : Nat)
    (hi : isdigit (input.getD i 0) = true) (hip : i ≤ p) :
    (walk input p 1 (luhn_digit 1 (input.getD p 0)) (p + 1) sa).1 ≤ i ↔
      ∃ s, s ≤ i ∧ Window input s p := by
  have hself := digitsOf_self input p hp hd
  have hdc : 1 = (digitsOf input p p).length := by rw [hself]; rfl
  have hsum : luhn_digit 1 (input.getD p 0) = luhnSum 1 (digitsOf input p p) := by
    rw [hself, luhn_digit_eq_specWeight _ _ hd]; simp [luhnSum]
  have hrun : ∀ j, p ≤ j → j ≤ p → isRunByte (input.getD j 0) = true := by
    intro j h1 h2
    rw [show j = p by omega]; exact isRunByte_of_isdigit hd
  constructor
  · intro h
    rcases walk_sound input p hp p 1 _ (p + 1) sa (Nat.le_refl _) hrun hdc hsum
      (Or.inl rfl) with h1 | ⟨h1, h2⟩
    · omega
    · exact ⟨_, h, h1, hp, hd, h2⟩
  · rintro ⟨s, hs, hw⟩
    obtain ⟨hsp, _, _, hg⟩ := hw
    obtain ⟨t, ht1, ht2, ht3, ht4⟩ := first_digit input p hp i hip hi (i - s) s (by omega)
    have hgt : Good input p t := by
      refine ⟨fun j h1 h2 => hg.1 j (by omega) h2, ?_, ?_, ?_⟩
      · rw [ht4]; exact hg.2.1
      · rw [ht4]; exact hg.2.2.1
      · rw [ht4]; exact hg.2.2.2
    have htp : t < p := by
      rcases Nat.eq_or_lt_of_le (Nat.le_trans ht2 hip) with h | h
      · exfalso
        have h14 := hgt.2.1
        rw [h, hself] at h14
        simp [MIN_DIGITS] at h14
      · exact h
    have := walk_complete input p hp p 1 _ (p + 1) sa (Nat.le_refl _) hdc hsum t htp ht3 hgt
    omega

/-! ## The redaction loop -/

theorem getD_set (l : List Nat) (j i v : Nat) :
    (l.set j v).getD i 0 = if i = j ∧ j < l.length then v else l.getD i 0 := by
  simp only [List.getD_eq_getElem?_getD, List.getElem?_set]
  by_cases h : j = i
  · subst h
    by_cases h2 : j < l.length
    · simp [h2]
    · have h3 : l[j]? = none := List.getElem?_eq_none (by omega)
      simp [h2, h3]
  · have : ¬ i = j := fun h2 => h h2.symm
    simp [h, this]

theorem redact_length (input : List Nat) :
    ∀ count sm out, (redact input count sm out).length = out.length := by
  intro count
  induction count with
  | zero => intro sm out; rfl
  | succ count ih =>
    intro sm out
    rw [redact, ih]
    split_ifs <;> simp

theorem redact_getD (input : List Nat) (i : Nat) :
    ∀ count sm out,
      (redact input count sm out).getD i 0 =
        if sm ≤ i ∧ i < sm + count ∧ isdigit (input.getD i 0) = true ∧ i < out.length
          then 88 else out.getD i 0 := by
  intro count
  induction count with
  | zero =>
    intro sm out
    rw [redact, if_neg]
    omega
  | succ count ih =>
    intro sm out
    rw [redact, ih]
    by_cases hd : isdigit (input.getD sm 0) = true
    · rw [if_pos hd, getD_set, List.length_set]
      by_cases h3 : sm + 1 ≤ i ∧ i < sm + 1 + count ∧
          isdigit (input.getD i 0) = true ∧ i < out.length
      · rw [if_pos h3, if_pos ⟨by omega, by omega, h3.2.2.1, h3.2.2.2⟩]
      · rw [if_neg h3]
        by_cases h1 : i = sm ∧ sm < out.length
        · rw [if_pos h1, if_pos]
          obtain ⟨h1a, h1b⟩ := h1
          subst h1a
          exact ⟨Nat.le_refl _, by omega, hd, h1b⟩
        · rw [if_neg h1, if_neg]
          rintro ⟨h4, h5, h6, h7⟩
          by_cases h8 : i = sm
          · exact h1 ⟨h8, by omega⟩
          · exact h3 ⟨by omega, by omega, h6, h7⟩
    · rw [if_neg hd]
      by_cases h3 : sm + 1 ≤ i ∧ i < sm + 1 + count ∧
          isdigit (input.getD i 0) = true ∧ i < out.length
      · rw [if_pos h3, if_pos ⟨by omega, by omega, h3.2.2.1, h3.2.2.2⟩]
      · rw [if_neg h3, if_neg]
        rintro ⟨h4, h5, h6, h7⟩
        by_cases h1 : i = sm
        · rw [h1] at h6; exact hd h6
        · exact h3 ⟨by omega, by omega, h6, h7⟩

/-! ## The outer scan -/

theorem scan_zero (input out : List Nat) (sd : Bool) (sa : Nat) :
    scan input 0 out sd sa = (out, sd, sa) := rfl

theorem scan_succ_digit (input : List Nat) (k : Nat) (out : List Nat) (sd : Bool) (sa : Nat)
    (hd : isdigit (input.getD k 0) = true) :
    scan input (k + 1) out sd sa =
      scan input k
        (redact input
          (k + 1 - (walk input k 1 (luhn_digit 1 (input.getD k 0)) (k + 1) sa).1)
          (walk input k 1 (luhn_digit 1 (input.getD k 0)) (k + 1) sa).1 out)
        true (walk input k 1 (luhn_digit 1 (input.getD k 0)) (k + 1) sa).2 := by
  rw [scan, if_pos hd]

theorem scan_succ_delim (input : List Nat) (k : Nat) (out : List Nat) (sd : Bool) (sa : Nat)
    (hd : ¬ isdigit (input.getD k 0) = true)
    (hs : sa = 0 ∧ input.getD k 0 ≠ 32 ∧ input.getD k 0 ≠ 45) :
    scan input (k + 1) out sd sa = scan input k out sd (k + 1) := by
  rw [scan, if_neg hd, if_pos hs]

theorem scan_succ_other (input : List Nat) (k : Nat) (out : List Nat) (sd : Bool) (sa : Nat)
    (hd : ¬ isdigit (input.getD k 0) = true)
    (hs : ¬ (sa = 0 ∧ input.getD k 0 ≠ 32 ∧ input.getD k 0 ≠ 45)) :
    scan input (k + 1) out sd sa = scan input k out sd sa := by
  rw [scan, if_neg hd, if_neg hs]

theorem scan_length (input : List Nat) :
    ∀ k out sd sa, (scan input k out sd sa).1.length = out.length := by
  intro k
  induction k with
  | zero => intro out sd sa; rfl
  | succ k ih =>
    intro out sd sa
    by_cases hd : isdigit (input.getD k 0) = true
    · rw [scan_succ_digit input k out sd sa hd, ih, redact_length]
    · by_cases hs : sa = 0 ∧ input.getD k 0 ≠ 32 ∧ input.getD k 0 ≠ 45
      · rw [scan_succ_delim input k out sd sa hd hs, ih]
      · rw [scan_succ_other input k out sd sa hd hs, ih]

theorem Masked_zero (input : List Nat) (i : Nat) : ¬ Masked input 0 i := by
  rintro ⟨_, s, p, _, _, h, _⟩
  omega

theorem Masked_succ (input : List Nat) (k i : Nat) :
    Masked input (k + 1) i ↔
      Masked input k i ∨
        (isdigit (input.getD i 0) = true ∧ i ≤ k ∧ ∃ s, s ≤ i ∧ Window input s k) := by
  constructor
  · rintro ⟨hd, s, p, h1, h2, h3, h4⟩
    rcases Nat.eq_or_lt_of_le (Nat.le_of_lt_succ h3) with h | h
    · subst h
      exact Or.inr ⟨hd, h2, s, h1, h4⟩
    · exact Or.inl ⟨hd, s, p, h1, h2, h, h4⟩
  · rintro (⟨hd, s, p, h1, h2, h3, h4⟩ | ⟨hd, h2, s, h1, h4⟩)
    · exact ⟨hd, s, p, h1, h2, by omega, h4⟩
    · exact ⟨hd, s, k, h1, h2, by omega, h4⟩

/-- The output of the scan: `'X'` exactly at the masked positions. -/
theorem scan_getD (input : List Nat) (i : Nat) :
    ∀ k out sd sa, k ≤ input.length → i < out.length →
      (Masked input k i → (scan input k out sd sa).1.getD i 0 = 88) ∧
      (¬ Masked input k i → (scan input k out sd sa).1.getD i 0 = out.getD i 0) := by
  intro k
  induction k with
  | zero =>
    intro out sd sa _ _
    exact ⟨fun h => absurd h (Masked_zero input i), fun _ => rfl⟩
  | succ k ih =>
    intro out sd sa hk hi
    by_cases hd : isdigit (input.getD k 0) = true
    · rw [scan_succ_digit input k out sd sa hd]
      have hle : (walk input k 1 (luhn_digit 1 (input.getD k 0)) (k + 1) sa).1 ≤ k + 1 := by
        rcases walk_fst_le input k 1 (luhn_digit 1 (input.getD k 0)) (k + 1) sa with h | h
        · omega
        · omega
      have hlen := redact_length input
        (k + 1 - (walk input k 1 (luhn_digit 1 (input.getD k 0)) (k + 1) sa).1)
        (walk input k 1 (luhn_digit 1 (input.getD k 0)) (k + 1) sa).1 out
      have hget := redact_getD input i
        (k + 1 - (walk input k 1 (luhn_digit 1 (input.getD k 0)) (k + 1) sa).1)
        (walk input k 1 (luhn_digit 1 (input.getD k 0)) (k + 1) sa).1 out
      obtain ⟨ih1, ih2⟩ := ih _ true
        (walk input k 1 (luhn_digit 1 (input.getD k 0)) (k + 1) sa).2 (by omega)
        (by rw [hlen]; exact hi)
      constructor
      · intro hm
        by_cases hmk : Masked input k i
        · exact ih1 hmk
        · rw [ih2 hmk, hget, if_pos]
          rcases (Masked_succ input k i).1 hm with h | ⟨h1, h2, h3⟩
          · exact absurd h hmk
          · have := (anchor_mask input k (by omega) hd sa i h1 h2).2 h3
            exact ⟨this, by omega, h1, hi⟩
      · intro hm
        have hmk : ¬ Masked input k i := fun h => hm ((Masked_succ input k i).2 (Or.inl h))
        rw [ih2 hmk, hget, if_neg]
        rintro ⟨h1, h2, h3, _⟩
        have h4 : i ≤ k := by omega
        have := (anchor_mask input k (by omega) hd sa i h3 h4).1 h1
        exact hm ((Masked_succ input k i).2 (Or.inr ⟨h3, h4, this⟩))
    · have hiff : Masked input (k + 1) i ↔ Masked input k i := by
        rw [Masked_succ]
        constructor
        · rintro (h | ⟨_, _, s, _, hw⟩)
          · exact h
          · exact absurd hw.2.2.1 hd
        · exact Or.inl
      by_cases hs : sa = 0 ∧ input.getD k 0 ≠ 32 ∧ input.getD k 0 ≠ 45
      · rw [scan_succ_delim input k out sd sa hd hs, hiff]
        exact ih _ _ _ (by omega) hi
      · rw [scan_succ_other input k out sd sa hd hs, hiff]
        exact ih _ _ _ (by omega) hi

/-- The `saw_digit` flag after the scan. -/
theorem scan_saw (input : List Nat) :
    ∀ k out sd sa,
      ((scan input k out sd sa).2.1 = true ↔
        sd = true ∨ ∃ j, j < k ∧ isdigit (input.getD j 0) = true) := by
  intro k
  induction k with
  | zero =>
    intro out sd sa
    rw [scan_zero]
    constructor
    · exact Or.inl
    · rintro (h | ⟨j, h, _⟩)
      · exact h
      · omega
  | succ k ih =>
    intro out sd sa
    by_cases hd : isdigit (input.getD k 0) = true
    · rw [scan_succ_digit input k out sd sa hd, ih]
      constructor
      · intro _; exact Or.inr ⟨k, by omega, hd⟩
      · intro _; exact Or.inl rfl
    · have hex : (∃ j, j < k + 1 ∧ isdigit (input.getD j 0) = true) ↔
          ∃ j, j < k ∧ isdigit (input.getD j 0) = true := by
        constructor
        · rintro ⟨j, h1, h2⟩
          rcases Nat.eq_or_lt_of_le (Nat.le_of_lt_succ h1) with h | h
          · rw [h] at h2; exact absurd h2 hd
          · exact ⟨j, h, h2⟩
        · rintro ⟨j, h1, h2⟩
          exact ⟨j, by omega, h2⟩
      by_cases hs : sa = 0 ∧ input.getD k 0 ≠ 32 ∧ input.getD k 0 ≠ 45
      · rw [scan_succ_delim input k out sd sa hd hs, ih, hex]
      · rw [scan_succ_other input k out sd sa hd hs, ih, hex]

/-! ## The safe anchor -/

theorem lastDelim_succ_run (input : List Nat) (k : Nat)
    (h : isRunByte (input.getD k 0) = true) :
    lastDelim input (k + 1) = lastDelim input k := by
  rw [lastDelim, if_pos h]

theorem lastDelim_succ_delim (input : List Nat) (k : Nat)
    (h : ¬ isRunByte (input.getD k 0) = true) :
    lastDelim input (k + 1) = k + 1 := by
  rw [lastDelim, if_neg h]

theorem lastDelim_le (input : List Nat) : ∀ k, lastDelim input k ≤ k := by
  intro k
  induction k with
  | zero => exact Nat.le_refl _
  | succ k ih =>
    by_cases h : isRunByte (input.getD k 0) = true
    · rw [lastDelim_succ_run input k h]; omega
    · rw [lastDelim_succ_delim input k h]

/-- The byte just before a non-zero `lastDelim` is a hard delimiter, and every
byte from there up to `k` is a digit, a space or a hyphen. -/
theorem lastDelim_spec (input : List Nat) :
    ∀ k, (0 < lastDelim input k →
        ¬ isRunByte (input.getD (lastDelim input k - 1) 0) = true) ∧
      (∀ j, lastDelim input k ≤ j → j < k → isRunByte (input.getD j 0) = true) := by
  intro k
  induction k with
  | zero => exact ⟨fun h => absurd h (by simp [lastDelim]), fun j _ h => by omega⟩
  | succ k ih =>
    by_cases h : isRunByte (input.getD k 0) = true
    · rw [lastDelim_succ_run input k h]
      refine ⟨ih.1, ?_⟩
      intro j h1 h2
      rcases Nat.eq_or_lt_of_le (Nat.le_of_lt_succ h2) with h3 | h3
      · rw [h3]; exact h
      · exact ih.2 j h1 h3
    · rw [lastDelim_succ_delim input k h]
      refine ⟨fun _ => by simpa using h, ?_⟩
      intro j h1 h2
      omega

theorem walk_snd_of_ne (input : List Nat) :
    ∀ m dc sum sm sa, sa ≠ 0 → (walk input m dc sum sm sa).2 = sa := by
  intro m
  induction m with
  | zero => intro dc sum sm sa _; rfl
  | succ m ih =>
    intro dc sum sm sa hsa
    by_cases h1 : dc < MAX_DIGITS
    · by_cases h2 : isdigit (input.getD m 0) = true
      · rw [walk_succ_digit input m dc sum sm sa h1 h2]
        exact ih _ _ _ _ hsa
      · by_cases h3 : input.getD m 0 ≠ 32 ∧ input.getD m 0 ≠ 45
        · rw [walk_succ_delim input m dc sum sm sa h1 h2 h3]
          exact if_neg hsa
        · rw [walk_succ_sep input m dc sum sm sa h1 h2 h3]
          exact ih _ _ _ _ hsa
    · rw [walk_succ_full input m dc sum sm sa h1]

theorem walk_snd_zero (input : List Nat) :
    ∀ m dc sum sm,
      (walk input m dc sum sm 0).2 = 0 ∨ (walk input m dc sum sm 0).2 = lastDelim input m := by
  intro m
  induction m with
  | zero => intro dc sum sm; left; rfl
  | succ m ih =>
    intro dc sum sm
    by_cases h1 : dc < MAX_DIGITS
    · by_cases h2 : isdigit (input.getD m 0) = true
      · rw [walk_succ_digit input m dc sum sm 0 h1 h2,
          lastDelim_succ_run input m (isRunByte_of_isdigit h2)]
        exact ih _ _ _
      · by_cases h3 : input.getD m 0 ≠ 32 ∧ input.getD m 0 ≠ 45
        · rw [walk_succ_delim input m dc sum sm 0 h1 h2 h3,
            lastDelim_succ_delim input m (not_isRunByte_of_delim h2 h3)]
          right; rfl
        · rw [walk_succ_sep input m dc sum sm 0 h1 h2 h3,
            lastDelim_succ_run input m (isRunByte_of_sep h3)]
          exact ih _ _ _
    · rw [walk_succ_full input m dc sum sm 0 h1]
      left; rfl

/-- The `safe_anchor` variable after the scan: once set it is kept, and it is
set at the rightmost hard delimiter. -/
theorem scan_safe (input : List Nat) :
    ∀ k out sd sa,
      (scan input k out sd sa).2.2 = if sa = 0 then lastDelim input k else sa := by
  intro k
  induction k with
  | zero =>
    intro out sd sa
    rw [scan_zero]
    split_ifs with h
    · exact h
    · rfl
  | succ k ih =>
    intro out sd sa
    by_cases hd : isdigit (input.getD k 0) = true
    · rw [scan_succ_digit input k out sd sa hd, ih,
        lastDelim_succ_run input k (isRunByte_of_isdigit hd)]
      by_cases hsa : sa = 0
      · subst hsa
        rw [if_pos rfl]
        rcases walk_snd_zero input k 1 (luhn_digit 1 (input.getD k 0)) (k + 1) with h | h
        · rw [h, if_pos rfl]
        · rw [h]
          split_ifs with h0
          · rfl
          · rfl
      · rw [walk_snd_of_ne input k 1 _ (k + 1) sa hsa, if_neg hsa]
    · by_cases hs : sa = 0 ∧ input.getD k 0 ≠ 32 ∧ input.getD k 0 ≠ 45
      · rw [scan_succ_delim input k out sd sa hd hs, ih, if_neg (by omega), if_pos hs.1,
          lastDelim_succ_delim input k (not_isRunByte_of_delim hd hs.2)]
      · rw [scan_succ_other input k out sd sa hd hs, ih]
        by_cases hsa : sa = 0
        · rw [if_pos hsa, if_pos hsa]
          have h3 : ¬ (input.getD k 0 ≠ 32 ∧ input.getD k 0 ≠ 45) := fun h => hs ⟨hsa, h⟩
          rw [lastDelim_succ_run input k (isRunByte_of_sep h3)]
        · rw [if_neg hsa, if_neg hsa]

/-! ## `filter` as a whole -/

theorem filter_length (output input : List Nat) (n : Nat) :
    (filter output input n).1.length = output.length :=
  scan_length input n output false 0

theorem filter_getD (output input : List Nat) (n i : Nat) (hn : n ≤ input.length)
    (hi : i < output.length) :
    (Masked input n i → (filter output input n).1.getD i 0 = 88) ∧
    (¬ Masked input n i → (filter output input n).1.getD i 0 = output.getD i 0) :=
  scan_getD input i n output false 0 hn hi

theorem filter_snd (output input : List Nat) (n : Nat) :
    (filter output input n).2 =
      if (∃ j, j < n ∧ isdigit (input.getD j 0) = true) then lastDelim input n else n := by
  unfold filter
  simp only
  have h1 := scan_saw input n output false 0
  have h2 := scan_safe input n output false 0
  rw [if_pos rfl] at h2
  by_cases h : ∃ j, j < n ∧ isdigit (input.getD j 0) = true
  · rw [if_pos h, if_pos (h1.2 (Or.inr h)), h2]
  · rw [if_neg h, if_neg]
    intro h3
    rcases h1.1 h3 with h4 | h4
    · exact absurd h4 (by simp)
    · exact h h4

theorem redacted_length (x : List Nat) : (redacted x).length = x.length :=
  filter_length x x x.length

theorem redacted_getD (x : List Nat) (i : Nat) (hi : i < x.length) :
    (Masked x x.length i → (redacted x).getD i 0 = 88) ∧
    (¬ Masked x x.length i → (redacted x).getD i 0 = x.getD i 0) :=
  filter_getD x x x.length i (Nat.le_refl _) hi

/-! ## Lists read through `getD` -/

theorem ext_getD (a b : List Nat) (hlen : a.length = b.length)
    (h : ∀ i, i < a.length → a.getD i 0 = b.getD i 0) : a = b := by
  apply List.ext_getElem hlen
  intro i h1 h2
  have := h i h1
  rw [getD_eq_getElem a i h1, getD_eq_getElem b i h2] at this
  exact this

theorem getD_of_le (l : List Nat) (i : Nat) (h : l.length ≤ i) : l.getD i 0 = 0 := by
  rw [List.getD_eq_getElem?_getD, List.getElem?_eq_none h]
  rfl

theorem getD_take (l : List Nat) (n i : Nat) :
    (l.take n).getD i 0 = if i < n then l.getD i 0 else 0 := by
  simp only [List.getD_eq_getElem?_getD, List.getElem?_take]
  split_ifs <;> rfl

theorem getD_drop (l : List Nat) (n i : Nat) :
    (l.drop n).getD i 0 = l.getD (n + i) 0 := by
  simp only [List.getD_eq_getElem?_getD, List.getElem?_drop]

theorem getD_append (a b : List Nat) (i : Nat) :
    (a ++ b).getD i 0 = if i < a.length then a.getD i 0 else b.getD (i - a.length) 0 := by
  simp only [List.getD_eq_getElem?_getD, List.getElem?_append]
  split_ifs <;> rfl

/-! ## Candidates depend only on the bytes they cover -/

theorem digitsOf_gt (input : List Nat) (s p : Nat) (h : p < s) : digitsOf input s p = [] := by
  unfold digitsOf
  have : List.drop s (List.take (p + 1) input) = [] := by
    apply List.drop_eq_nil_of_le
    rw [List.length_take]
    omega
  rw [this]
  rfl

/-- Two buffers that agree on a stretch, up to a shift of the indices, have
the same digits there. -/
theorem digitsOf_shift (a b : List Nat) (w p : Nat) (hpa : p < a.length)
    (hpb : p + w < b.length) :
    ∀ d s, s + d = p + 1 →
      (∀ j, s ≤ j → j ≤ p → a.getD j 0 = b.getD (j + w) 0) →
      digitsOf a s p = digitsOf b (s + w) (p + w) := by
  intro d
  induction d with
  | zero =>
    intro s hs _
    rw [digitsOf_gt a s p (by omega), digitsOf_gt b (s + w) (p + w) (by omega)]
  | succ d ih =>
    intro s hs h
    rw [digitsOf_step a s p (by omega) hpa, digitsOf_step b (s + w) (p + w) (by omega) hpb,
      h s (Nat.le_refl _) (by omega), show s + w + 1 = s + 1 + w by omega,
      ih (s + 1) (by omega) (fun j h1 h2 => h j (by omega) h2)]

theorem Window_shift (a b : List Nat) (w s p : Nat) (hpa : p < a.length)
    (hpb : p + w < b.length)
    (h : ∀ j, s ≤ j → j ≤ p → a.getD j 0 = b.getD (j + w) 0) :
    Window a s p ↔ Window b (s + w) (p + w) := by
  by_cases hsp : s ≤ p
  · have hd := digitsOf_shift a b w p hpa hpb (p + 1 - s) s (by omega) h
    unfold Window
    rw [hd, h p hsp (Nat.le_refl _)]
    constructor
    · rintro ⟨_, _, h3, h4, h5⟩
      refine ⟨by omega, hpb, h3, ?_, h5⟩
      intro j h6 h7
      have := h4 (j - w) (by omega) (by omega)
      rw [h (j - w) (by omega) (by omega), show j - w + w = j by omega] at this
      exact this
    · rintro ⟨_, _, h3, h4, h5⟩
      refine ⟨hsp, hpa, h3, ?_, h5⟩
      intro j h6 h7
      rw [h j h6 h7]
      exact h4 (j + w) (by omega) (by omega)
  · constructor
    · intro hw; exact absurd hw.1 hsp
    · intro hw; exact absurd hw.1 (by omega)

theorem Window_congr (a b : List Nat) (s p : Nat) (hpa : p < a.length) (hpb : p < b.length)
    (h : ∀ j, s ≤ j → j ≤ p → a.getD j 0 = b.getD j 0) :
    Window a s p ↔ Window b s p :=
  Window_shift a b 0 s p hpa hpb h

theorem digitsOf_length_total (input : List Nat) (s p : Nat) :
    (digitsOf input s p).length ≤ (input.filter isdigit).length := by
  unfold digitsOf
  rw [List.length_reverse]
  apply List.Sublist.length_le
  apply List.Sublist.filter
  exact (List.drop_sublist _ _).trans (List.take_sublist _ _)

/-- A position that is not masked keeps its byte; a masked one holds `'X'`. -/
theorem redacted_cases (x : List Nat) (i : Nat) :
    (redacted x).getD i 0 = x.getD i 0 ∨
      (Masked x x.length i ∧ (redacted x).getD i 0 = 88) := by
  by_cases hi : i < x.length
  · by_cases hm : Masked x x.length i
    · exact Or.inr ⟨hm, (redacted_getD x i hi).1 hm⟩
    · exact Or.inl ((redacted_getD x i hi).2 hm)
  · left
    rw [getD_of_le x i (by omega), getD_of_le (redacted x) i (by rw [redacted_length]; omega)]

/-- Extending the stretch by one byte on the right. -/
theorem digitsOf_step_right (input : List Nat) (s p : Nat) (hs : s ≤ p + 1)
    (hp : p + 1 < input.length) :
    digitsOf input s (p + 1) =
      (if isdigit (input.getD (p + 1) 0) then [input.getD (p + 1) 0] else []) ++
        digitsOf input s p := by
  unfold digitsOf
  have h1 : List.take (p + 1 + 1) input = List.take (p + 1) input ++ [input.getD (p + 1) 0] := by
    rw [List.take_succ, List.getElem?_eq_getElem hp, getD_eq_getElem input (p + 1) hp]
    rfl
  have h2 : s ≤ (List.take (p + 1) input).length := by
    rw [List.length_take]; omega
  rw [h1, List.drop_append_of_le_length h2, List.filter_append, List.reverse_append]
  congr 1
  rw [List.filter_cons]
  split <;> rfl

theorem digitsOf_length_mono (input : List Nat) (a s p e : Nat) (h1 : a ≤ s) (h2 : p ≤ e) :
    (digitsOf input s p).length ≤ (digitsOf input a e).length := by
  unfold digitsOf
  rw [List.length_reverse, List.length_reverse]
  apply List.Sublist.length_le
  apply List.Sublist.filter
  exact (List.drop_sublist_drop_left _ h1).trans
    ((List.take_sublist_take_left input (show p + 1 ≤ e + 1 by omega)).drop a)

/-- Above a digit inside a stretch there is a digit at which the stretch can
be made to end without losing any of its digits. -/
theorem last_digit (input : List Nat) (a j : Nat) (haj : a ≤ j)
    (hj : isdigit (input.getD j 0) = true) :
    ∀ d e, j + d = e → e < input.length →
      ∃ t, j ≤ t ∧ t ≤ e ∧ isdigit (input.getD t 0) = true ∧
        digitsOf input a t = digitsOf input a e := by
  intro d
  induction d with
  | zero =>
    intro e h1 _
    exact ⟨j, Nat.le_refl _, by omega, hj, by rw [show e = j by omega]⟩
  | succ d ih =>
    intro e h1 h2
    by_cases h : isdigit (input.getD e 0) = true
    · exact ⟨e, by omega, Nat.le_refl _, h, rfl⟩
    · obtain ⟨t, ht1, ht2, ht3, ht4⟩ := ih (j + d) rfl (by omega)
      refine ⟨t, ht1, by omega, ht3, ?_⟩
      have h3 := digitsOf_step_right input a (j + d) (by omega) (by omega)
      rw [show j + d + 1 = e by omega, if_neg h] at h3
      rw [ht4, h3]
      rfl

/-- Every digit of a stretch that passes the checks is masked. -/
theorem run_masked (input : List Nat) (a e : Nat) (he : e < input.length)
    (hrun : ∀ j, a ≤ j → j ≤ e → isRunByte (input.getD j 0) = true)
    (hk1 : 14 ≤ (digitsOf input a e).length) (hk2 : (digitsOf input a e).length ≤ 16)
    (hluhn : luhnSum 1 (digitsOf input a e) % 10 = 0)
    (j : Nat) (haj : a ≤ j) (hje : j ≤ e) (hdj : isdigit (input.getD j 0) = true) :
    Masked input input.length j := by
  obtain ⟨t, ht1, ht2, ht3, ht4⟩ := last_digit input a j haj hdj (e - j) e (by omega) he
  refine ⟨hdj, a, t, haj, ht1, by omega, by omega, by omega, ht3, ?_, ?_, ?_, ?_⟩
  · intro i h1 h2
    exact hrun i h1 (by omega)
  · rw [ht4]; exact hk1
  · rw [ht4]; exact hk2
  · rw [ht4]; exact hluhn

/-- An input without any valid candidate is returned unchanged. -/
theorem redacted_eq_self (x : List Nat)
    (h : ∀ s p, Window x s p → False) : redacted x = x := by
  apply ext_getD _ _ (redacted_length x)
  intro i _
  rcases redacted_cases x i with h1 | ⟨⟨_, s, p, _, _, _, hw⟩, _⟩
  · exact h1
  · exact absurd hw (h s p)

/-! ## Stability of the masking under appended input -/

theorem getD_append_left (a b : List Nat) (j : Nat) (h : j < a.length) :
    (a ++ b).getD j 0 = a.getD j 0 := by
  rw [getD_append, if_pos h]

/-- Appending input never unmasks a digit. -/
theorem Masked_append (S T : List Nat) (i : Nat) (h : Masked S S.length i) :
    Masked (S ++ T) (S ++ T).length i := by
  obtain ⟨hd, s, p, h1, h2, h3, hw⟩ := h
  have hlen : p < (S ++ T).length := by rw [List.length_append]; omega
  refine ⟨?_, s, p, h1, h2, hlen, ?_⟩
  · rw [getD_append_left S T i (by omega)]; exact hd
  · exact (Window_congr S (S ++ T) s p h3 hlen
      (fun j _ hj => (getD_append_left S T j (by omega)).symm)).1 hw

/-- Left of a hard delimiter that is followed by digit-free bytes only, later
input cannot mask anything. -/
theorem Masked_stable (S T : List Nat) (b w i : Nat) (hb : b ≤ w) (hw : w ≤ S.length)
    (hdelim : b = 0 ∨ isRunByte (S.getD (b - 1) 0) = false)
    (hfree : ∀ j, b ≤ j → j < w → isdigit (S.getD j 0) = false) (hi : i < w)
    (h : Masked (S ++ T) (S ++ T).length i) : Masked S S.length i := by
  obtain ⟨hd, s, p, h1, h2, h3, hwin⟩ := h
  rw [getD_append_left S T i (by omega)] at hd
  have hib : i < b := by
    by_contra hc
    have := hfree i (by omega) hi
    rw [hd] at this
    exact absurd this (by simp)
  have hnr : isRunByte (S.getD (b - 1) 0) = false := by
    rcases hdelim with h0 | h0
    · omega
    · exact h0
  have hib1 : i ≠ b - 1 := by
    intro hc
    rw [← hc, isRunByte_of_isdigit hd] at hnr
    exact absurd hnr (by simp)
  have hbw : b - 1 < S.length := by omega
  have hpb : p < b - 1 := by
    by_contra hc
    have := hwin.2.2.2.1 (b - 1) (by omega) (by omega)
    rw [getD_append_left S T (b - 1) hbw, hnr] at this
    exact absurd this (by simp)
  have hpS : p < S.length := by omega
  refine ⟨hd, s, p, h1, h2, hpS, ?_⟩
  exact (Window_congr S (S ++ T) s p hpS h3
    (fun j _ hj => (getD_append_left S T j (by omega)).symm)).2 hwin

theorem redacted_append_getD (S T : List Nat) (b w i : Nat) (hb : b ≤ w)
    (hw : w ≤ S.length)
    (hdelim : b = 0 ∨ isRunByte (S.getD (b - 1) 0) = false)
    (hfree : ∀ j, b ≤ j → j < w → isdigit (S.getD j 0) = false) (hi : i < w) :
    (redacted (S ++ T)).getD i 0 = (redacted S).getD i 0 := by
  have hiS : i < S.length := by omega
  have hiST : i < (S ++ T).length := by rw [List.length_append]; omega
  by_cases hm : Masked S S.length i
  · rw [(redacted_getD S i hiS).1 hm, (redacted_getD (S ++ T) i hiST).1 (Masked_append S T i hm)]
  · have hm2 : ¬ Masked (S ++ T) (S ++ T).length i :=
      fun h => hm (Masked_stable S T b w i hb hw hdelim hfree hi h)
    rw [(redacted_getD S i hiS).2 hm, (redacted_getD (S ++ T) i hiST).2 hm2,
      getD_append_left S T i hiS]

theorem safeAnchor_eq (x : List Nat) :
    safeAnchor x =
      if (∃ j, j < x.length ∧ isdigit (x.getD j 0) = true) then lastDelim x x.length
      else x.length :=
  filter_snd x x x.length

theorem safeAnchor_le (x : List Nat) : safeAnchor x ≤ x.length := by
  rw [safeAnchor_eq]
  split_ifs
  · exact lastDelim_le x x.length
  · exact Nat.le_refl _

/-- The prefix below the safe anchor ends in a hard delimiter or is free of
digits. -/
theorem safeAnchor_boundary (x : List Nat) :
    ∃ b, b ≤ safeAnchor x ∧ (b = 0 ∨ isRunByte (x.getD (b - 1) 0) = false) ∧
      ∀ j, b ≤ j → j < safeAnchor x → isdigit (x.getD j 0) = false := by
  rw [safeAnchor_eq]
  by_cases h : ∃ j, j < x.length ∧ isdigit (x.getD j 0) = true
  · rw [if_pos h]
    refine ⟨lastDelim x x.length, Nat.le_refl _, ?_, fun j h1 h2 => by omega⟩
    by_cases h0 : lastDelim x x.length = 0
    · exact Or.inl h0
    · right
      have := (lastDelim_spec x x.length).1 (by omega)
      simpa using this
  · rw [if_neg h]
    refine ⟨0, Nat.zero_le _, Or.inl rfl, ?_⟩
    intro j _ hj
    by_contra hc
    exact h ⟨j, hj, by simpa using hc⟩

/-! ## Buffers of the pump -/

theorem region_getD (buf : List Nat) (off len j : Nat) :
    (region buf off len).getD j 0 = if j < len then buf.getD (off + j) 0 else 0 := by
  unfold region
  rw [getD_take, getD_drop]

theorem region_length (buf : List Nat) (off len : Nat) (h : off + len ≤ buf.length) :
    (region buf off len).length = len := by
  unfold region
  rw [List.length_take, List.length_drop]
  omega

theorem blit_length (buf : List Nat) (off : Nat) (src : List Nat)
    (h : off + src.length ≤ buf.length) : (blit buf off src).length = buf.length := by
  unfold blit
  rw [List.length_append, List.length_append, List.length_take, List.length_drop]
  omega

theorem blit_getD (buf : List Nat) (off : Nat) (src : List Nat) (j : Nat)
    (h : off + src.length ≤ buf.length) :
    (blit buf off src).getD j 0 =
      if j < off then buf.getD j 0
      else if j < off + src.length then src.getD (j - off) 0 else buf.getD j 0 := by
  unfold blit
  have h1 : (List.take off buf).length = off := by rw [List.length_take]; omega
  rw [getD_append, List.length_append, h1]
  by_cases h2 : j < off
  · rw [if_pos (by omega), if_pos h2, getD_append, h1, if_pos h2, getD_take, if_pos h2]
  · by_cases h3 : j < off + src.length
    · rw [if_pos h3, if_neg h2, if_pos h3, getD_append, h1, if_neg h2]
    · rw [if_neg h3, if_neg h2, if_neg h3, getD_drop]
      congr 1
      omega

/-! ## The masking seen from a buffer that holds a tail of the stream -/

/-- Bytes that are not digits at the left end of a stretch can be dropped. -/
theorem digitsOf_skip (X : List Nat) (w p : Nat) (hwp : w ≤ p) (hp : p < X.length) :
    ∀ d s, s + d = w → (∀ j, s ≤ j → j < w → isdigit (X.getD j 0) = false) →
      digitsOf X s p = digitsOf X w p := by
  intro d
  induction d with
  | zero =>
    intro s hs _
    rw [show s = w by omega]
  | succ d ih =>
    intro s hs h
    have h1 := h s (Nat.le_refl _) (by omega)
    rw [digitsOf_step X s p (by omega) hp, h1, ih (s + 1) (by omega)
      (fun j h2 h3 => h j (by omega) h3)]
    simp

/-- The buffer `B` holds in `B[0..n)` the tail `X[w..w+n)` of the stream `X`,
and no candidate of `X` can reach below `w` with a digit: then a position of
the buffer is masked by a scan of the buffer exactly when it is masked in the
stream. -/
theorem Masked_shift (B X : List Nat) (w n : Nat) (hn : n ≤ B.length)
    (hX : X.length = w + n)
    (hagree : ∀ j, j < n → B.getD j 0 = X.getD (j + w) 0)
    (hbd : ∃ b, b ≤ w ∧ (b = 0 ∨ isRunByte (X.getD (b - 1) 0) = false) ∧
      ∀ j, b ≤ j → j < w → isdigit (X.getD j 0) = false)
    (i : Nat) (hi : i < n) :
    Masked B n i ↔ Masked X X.length (i + w) := by
  constructor
  · rintro ⟨hd, s, p, h1, h2, h3, hw⟩
    refine ⟨?_, s + w, p + w, by omega, by omega, by omega, ?_⟩
    · rw [← hagree i hi]; exact hd
    · exact (Window_shift B X w s p (by omega) (by omega)
        (fun j _ hj => hagree j (by omega))).1 hw
  · rintro ⟨hd, s, p, h1, h2, h3, hw⟩
    rw [← hagree i hi] at hd
    obtain ⟨b, hb1, hb2, hb3⟩ := hbd
    by_cases hsw : w ≤ s
    · refine ⟨hd, s - w, p - w, by omega, by omega, by omega, ?_⟩
      have := (Window_shift B X w (s - w) (p - w) (by omega) (by omega)
        (fun j _ hj => hagree j (by omega))).2
      rw [show s - w + w = s by omega, show p - w + w = p by omega] at this
      exact this hw
    · have hbs : b ≤ s := by
        by_contra hc
        rcases hb2 with h0 | h0
        · omega
        · have := hw.2.2.2.1 (b - 1) (by omega) (by omega)
          rw [h0] at this
          exact absurd this (by simp)
      have hskip := digitsOf_skip X w p (by omega) h3 (w - s) s (by omega)
        (fun j h4 h5 => hb3 j (by omega) h5)
      have hwin : Window X w p := by
        obtain ⟨_, h5, h6, h7, h8⟩ := hw
        rw [hskip] at h8
        exact ⟨by omega, h5, h6, fun j h9 h10 => h7 j (by omega) h10, h8⟩
      refine ⟨hd, 0, p - w, by omega, by omega, by omega, ?_⟩
      have := (Window_shift B X w 0 (p - w) (by omega) (by omega)
        (fun j _ hj => hagree j (by omega))).2
      rw [show 0 + w = w by omega, show p - w + w = p by omega] at this
      exact this hwin

/-! ## One pass of the pump -/

/-- The scan of a buffer that holds the tail `X[w..)` of the stream
`X = S ++ c`, its output buffer carrying the redaction of `S` on the retained
`t` bytes and a copy of the new chunk `c` after them. -/
theorem step_core (C : Nat) (S c : List Nat) (w t : Nat) (ib1 ob1 : List Nat)
    (hib1 : ib1.length = C) (hob1 : ob1.length = C) (hfit : t + c.length ≤ C)
    (hlen : w + t = S.length)
    (hin1 : ∀ j, j < t + c.length → ib1.getD j 0 = (S ++ c).getD (j + w) 0)
    (hout1 : ∀ j, j < t + c.length →
      ob1.getD j 0 =
        if j < t then (redacted S).getD (j + w) 0 else (S ++ c).getD (j + w) 0)
    (hbd : ∃ b, b ≤ w ∧ (b = 0 ∨ isRunByte (S.getD (b - 1) 0) = false) ∧
      ∀ j, b ≤ j → j < w → isdigit (S.getD j 0) = false) :
    (filter ob1 ib1 (c.length + t)).2 ≤ t + c.length ∧
    (∀ j, j < t + c.length →
      (filter ob1 ib1 (c.length + t)).1.getD j 0 = (redacted (S ++ c)).getD (j + w) 0) ∧
    (∃ b, b ≤ w + (filter ob1 ib1 (c.length + t)).2 ∧
      (b = 0 ∨ isRunByte ((S ++ c).getD (b - 1) 0) = false) ∧
      ∀ j, b ≤ j → j < w + (filter ob1 ib1 (c.length + t)).2 →
        isdigit ((S ++ c).getD j 0) = false) ∧
    (filter ob1 ib1 (c.length + t)).1.length = C := by
  have hX : (S ++ c).length = w + (c.length + t) := by
    rw [List.length_append]; omega
  have hin2 : ∀ j, j < c.length + t → ib1.getD j 0 = (S ++ c).getD (j + w) 0 :=
    fun j hj => hin1 j (by omega)
  obtain ⟨b, hb1, hb2, hb3⟩ := hbd
  have hbdX : ∃ b, b ≤ w ∧ (b = 0 ∨ isRunByte ((S ++ c).getD (b - 1) 0) = false) ∧
      ∀ j, b ≤ j → j < w → isdigit ((S ++ c).getD j 0) = false := by
    refine ⟨b, hb1, ?_, ?_⟩
    · rcases hb2 with h0 | h0
      · exact Or.inl h0
      · by_cases hb0 : b = 0
        · exact Or.inl hb0
        · right
          rw [getD_append_left S c _ (by omega)]; exact h0
    · intro j h1 h2
      rw [getD_append_left S c j (by omega)]
      exact hb3 j h1 h2
  have hshift := Masked_shift ib1 (S ++ c) w (c.length + t) (by omega) hX hin2 hbdX
  have hsnd := filter_snd ob1 ib1 (c.length + t)
  refine ⟨?_, ?_, ?_, ?_⟩
  · rw [hsnd]
    split_ifs
    · have := lastDelim_le ib1 (c.length + t); omega
    · omega
  · intro j hj
    obtain ⟨f1, f2⟩ := filter_getD ob1 ib1 (c.length + t) j (by omega) (by omega)
    have hjX : j + w < (S ++ c).length := by omega
    by_cases hm : Masked ib1 (c.length + t) j
    · rw [f1 hm, (redacted_getD (S ++ c) (j + w) hjX).1 ((hshift j (by omega)).1 hm)]
    · have hmX : ¬ Masked (S ++ c) (S ++ c).length (j + w) :=
        fun h => hm ((hshift j (by omega)).2 h)
      rw [f2 hm, (redacted_getD (S ++ c) (j + w) hjX).2 hmX, hout1 j hj]
      by_cases hjt : j < t
      · rw [if_pos hjt]
        have hmS : ¬ Masked S S.length (j + w) := fun h => hmX (Masked_append S c _ h)
        rw [(redacted_getD S (j + w) (by omega)).2 hmS, getD_append_left S c _ (by omega)]
      · rw [if_neg hjt]
  · by_cases hdig : ∃ j, j < c.length + t ∧ isdigit (ib1.getD j 0) = true
    · rw [hsnd, if_pos hdig]
      by_cases h0 : lastDelim ib1 (c.length + t) = 0
      · rw [h0]
        obtain ⟨b2, h1, h2, h3⟩ := hbdX
        exact ⟨b2, by omega, h2, fun j h4 h5 => h3 j h4 (by omega)⟩
      · have hle := lastDelim_le ib1 (c.length + t)
        have hsp := (lastDelim_spec ib1 (c.length + t)).1 (by omega)
        refine ⟨w + lastDelim ib1 (c.length + t), Nat.le_refl _, Or.inr ?_,
          fun j h4 h5 => by omega⟩
        rw [hin2 (lastDelim ib1 (c.length + t) - 1) (by omega)] at hsp
        rw [show w + lastDelim ib1 (c.length + t) - 1
          = lastDelim ib1 (c.length + t) - 1 + w by omega]
        simpa using hsp
    · rw [hsnd, if_neg hdig]
      obtain ⟨b2, h1, h2, h3⟩ := hbdX
      refine ⟨b2, by omega, h2, ?_⟩
      intro j h4 h5
      by_cases hjw : j < w
      · exact h3 j h4 hjw
      · have h6 := hin2 (j - w) (by omega)
        rw [show j - w + w = j by omega] at h6
        rw [← h6]
        by_contra hc
        exact hdig ⟨j - w, by omega, by simpa using hc⟩
  · rw [filter_length, hob1]

theorem region_zero (buf : List Nat) (off : Nat) : region buf off 0 = [] := by
  unfold region
  rfl

theorem written_eq (wr out : List Nat) (sa : Nat) :
    (if 0 < sa then wr ++ region out 0 sa else wr) = wr ++ region out 0 sa := by
  split_ifs with h
  · rfl
  · rw [show sa = 0 by omega, region_zero, List.append_nil]

theorem nextPump_eq (st : Pump) (c : List Nat) (C : Nat) (hib : st.input_buffer.length = C)
    (hfit : st.start_pad + c.length ≤ C) :
    nextPump st c =
      { input_buffer :=
          blit (blit st.input_buffer st.start_pad c) 0
            (region (blit st.input_buffer st.start_pad c)
              (filter (blit st.output_buffer st.start_pad c)
                (blit st.input_buffer st.start_pad c) (c.length + st.start_pad)).2
              (st.start_pad + c.length -
                (filter (blit st.output_buffer st.start_pad c)
                  (blit st.input_buffer st.start_pad c) (c.length + st.start_pad)).2))
        output_buffer :=
          blit (filter (blit st.output_buffer st.start_pad c)
              (blit st.input_buffer st.start_pad c) (c.length + st.start_pad)).1 0
            (region (filter (blit st.output_buffer st.start_pad c)
                (blit st.input_buffer st.start_pad c) (c.length + st.start_pad)).1
              (filter (blit st.output_buffer st.start_pad c)
                (blit st.input_buffer st.start_pad c) (c.length + st.start_pad)).2
              (st.start_pad + c.length -
                (filter (blit st.output_buffer st.start_pad c)
                  (blit st.input_buffer st.start_pad c) (c.length + st.start_pad)).2))
        start_pad :=
          st.start_pad + c.length -
            (filter (blit st.output_buffer st.start_pad c)
              (blit st.input_buffer st.start_pad c) (c.length + st.start_pad)).2
        written :=
          st.written ++
            region (filter (blit st.output_buffer st.start_pad c)
                (blit st.input_buffer st.start_pad c) (c.length + st.start_pad)).1 0
              (filter (blit st.output_buffer st.start_pad c)
                (blit st.input_buffer st.start_pad c) (c.length + st.start_pad)).2 } := by
  have hreg : region (blit st.input_buffer st.start_pad c) st.start_pad c.length = c := by
    apply ext_getD
    · rw [region_length]
      rw [blit_length _ _ _ (by omega)]
      omega
    · intro i hi
      rw [region_length _ _ _ (by rw [blit_length _ _ _ (by omega)]; omega)] at hi
      rw [region_getD, if_pos hi, blit_getD _ _ _ _ (by omega), if_neg (by omega),
        if_pos (by omega)]
      congr 1
      omega
  unfold nextPump
  simp only [hreg, written_eq]

/-- The loop invariant is kept by one pass of the body. -/
theorem nextPump_inv (C : Nat) (S : List Nat) (st : Pump) (c : List Nat)
    (hinv : PumpInv C S st) (hfit : st.start_pad + c.length ≤ C) :
    PumpInv C (S ++ c) (nextPump st c) := by
  obtain ⟨hib, hob, _, hlen, hin, hout, hwr, hbd⟩ := hinv
  have hib1 : (blit st.input_buffer st.start_pad c).length = C := by
    rw [blit_length _ _ _ (by omega), hib]
  have hob1 : (blit st.output_buffer st.start_pad c).length = C := by
    rw [blit_length _ _ _ (by omega), hob]
  have hin1 : ∀ j, j < st.start_pad + c.length →
      (blit st.input_buffer st.start_pad c).getD j 0 =
        (S ++ c).getD (j + st.written.length) 0 := by
    intro j hj
    rw [blit_getD _ _ _ _ (by omega)]
    by_cases h : j < st.start_pad
    · rw [if_pos h, hin j h, getD_append_left S c _ (by omega)]
    · rw [if_neg h, if_pos hj, getD_append, if_neg (by omega)]
      congr 1
      omega
  have hout1 : ∀ j, j < st.start_pad + c.length →
      (blit st.output_buffer st.start_pad c).getD j 0 =
        if j < st.start_pad then (redacted S).getD (j + st.written.length) 0
        else (S ++ c).getD (j + st.written.length) 0 := by
    intro j hj
    rw [blit_getD _ _ _ _ (by omega)]
    by_cases h : j < st.start_pad
    · rw [if_pos h, if_pos h, hout j h]
    · rw [if_neg h, if_pos hj, if_neg h, getD_append, if_neg (by omega)]
      congr 1
      omega
  obtain ⟨k1, k2, k3, k4⟩ := step_core C S c st.written.length st.start_pad _ _ hib1 hob1
    hfit hlen hin1 hout1 hbd
  obtain ⟨b, hb1, hb2, hb3⟩ := hbd
  rw [nextPump_eq st c C hib hfit]
  generalize filter (blit st.output_buffer st.start_pad c)
    (blit st.input_buffer st.start_pad c) (c.length + st.start_pad) = r at k1 k2 k3 k4 ⊢
  have hr1 : (region (blit st.input_buffer st.start_pad c) r.2
      (st.start_pad + c.length - r.2)).length = st.start_pad + c.length - r.2 :=
    region_length _ _ _ (by omega)
  have hr2 : (region r.1 r.2 (st.start_pad + c.length - r.2)).length
      = st.start_pad + c.length - r.2 :=
    region_length _ _ _ (by omega)
  have hr3 : (region r.1 0 r.2).length = r.2 := region_length _ _ _ (by omega)
  refine ⟨?_, ?_, ?_, ?_, ?_, ?_, ?_, ?_⟩
  · show (blit _ 0 _).length = C
    rw [blit_length _ _ _ (by rw [hr1]; omega), hib1]
  · show (blit _ 0 _).length = C
    rw [blit_length _ _ _ (by rw [hr2]; omega), k4]
  · show st.start_pad + c.length - r.2 ≤ C
    omega
  · show (st.written ++ region r.1 0 r.2).length + (st.start_pad + c.length - r.2)
      = (S ++ c).length
    rw [List.length_append, List.length_append, hr3]
    omega
  · intro j hj
    show (blit _ 0 _).getD j 0 = (S ++ c).getD (j + (st.written ++ region r.1 0 r.2).length) 0
    have hj2 : j < st.start_pad + c.length - r.2 := hj
    rw [blit_getD _ _ _ _ (by rw [hr1]; omega), if_neg (by omega),
      if_pos (by rw [hr1]; omega), region_getD, if_pos (by omega),
      hin1 _ (by omega), List.length_append, hr3]
    congr 1
    omega
  · intro j hj
    show (blit _ 0 _).getD j 0
      = (redacted (S ++ c)).getD (j + (st.written ++ region r.1 0 r.2).length) 0
    have hj2 : j < st.start_pad + c.length - r.2 := hj
    rw [blit_getD _ _ _ _ (by rw [hr2]; omega), if_neg (by omega),
      if_pos (by rw [hr2]; omega), region_getD, if_pos (by omega),
      k2 _ (by omega), List.length_append, hr3]
    congr 1
    omega
  · intro j hj
    show (st.written ++ region r.1 0 r.2).getD j 0 = (redacted (S ++ c)).getD j 0
    have hj2 : j < (st.written ++ region r.1 0 r.2).length := hj
    rw [List.length_append, hr3] at hj2
    rw [getD_append]
    by_cases h : j < st.written.length
    · rw [if_pos h, hwr j h]
      exact (redacted_append_getD S c b st.written.length j hb1 (by omega) hb2 hb3 h).symm
    · rw [if_neg h, region_getD, if_pos (by omega), k2 _ (by omega)]
      congr 1
      omega
  · show ∃ b, b ≤ (st.written ++ region r.1 0 r.2).length ∧ _
    rw [List.length_append, hr3]
    exact k3

theorem initPump_inv (C : Nat) : PumpInv C [] (initPump C) := by
  refine ⟨?_, ?_, Nat.zero_le _, rfl, ?_, ?_, ?_, ?_⟩
  · show (List.replicate C 0).length = C
    rw [List.length_replicate]
  · show (List.replicate C 0).length = C
    rw [List.length_replicate]
  · intro j hj
    exact absurd hj (Nat.not_lt_zero _)
  · intro j hj
    exact absurd hj (Nat.not_lt_zero _)
  · intro j hj
    exact absurd hj (Nat.not_lt_zero _)
  · exact ⟨0, Nat.le_refl _, Or.inl rfl, fun j _ hj => absurd hj (Nat.not_lt_zero _)⟩

/-- At the end of the input the bytes written are the redaction of the stream. -/
theorem finish_inv (C : Nat) (S : List Nat) (st : Pump) (hinv : PumpInv C S st) :
    finish st = Outcome.finished (redacted S) := by
  obtain ⟨_, hob, hpad, hlen, _, hout, hwr, _⟩ := hinv
  unfold finish
  rw [written_eq]
  congr 1
  have hr : (region st.output_buffer 0 st.start_pad).length = st.start_pad :=
    region_length _ _ _ (by omega)
  apply ext_getD
  · rw [List.length_append, hr, redacted_length, hlen]
  · intro j hj
    rw [List.length_append, hr] at hj
    rw [getD_append]
    by_cases h : j < st.written.length
    · rw [if_pos h, hwr j h]
    · rw [if_neg h, region_getD, if_pos (by omega), hout _ (by omega)]
      congr 1
      omega

theorem pumpLoop_cons (C : Nat) (c : List Nat) (rest : List (List Nat)) (st : Pump)
    (hc : c.length ≠ 0) (hfit : ¬ C - st.start_pad < c.length) :
    pumpLoop C (c :: rest) st =
      if (nextPump st c).start_pad = C then Outcome.capacityError (nextPump st c).written
      else pumpLoop C rest (nextPump st c) := by
  rw [pumpLoop, if_neg hc, if_neg hfit]

/-- A run of the pump that reaches the end of the input has written the
redaction of the whole stream. -/
theorem pumpLoop_finished (C : Nat) :
    ∀ chunks S st, PumpInv C S st → (∀ c ∈ chunks, c ≠ []) →
      ∀ out, pumpLoop C chunks st = Outcome.finished out →
        out = redacted (S ++ chunks.flatten) := by
  intro chunks
  induction chunks with
  | nil =>
    intro S st hinv _ out hfin
    rw [pumpLoop, finish_inv C S st hinv] at hfin
    rw [List.flatten_nil, List.append_nil]
    exact (Outcome.finished.inj hfin).symm
  | cons c rest ih =>
    intro S st hinv hne out hfin
    have hc : c.length ≠ 0 := by
      intro h
      exact hne c (List.mem_cons_self _ _) (List.length_eq_zero.1 h)
    by_cases hfit : C - st.start_pad < c.length
    · rw [pumpLoop, if_neg hc, if_pos hfit] at hfin
      exact Outcome.noConfusion hfin
    · rw [pumpLoop_cons C c rest st hc hfit] at hfin
      by_cases hcap : (nextPump st c).start_pad = C
      · rw [if_pos hcap] at hfin
        exact Outcome.noConfusion hfin
      · rw [if_neg hcap] at hfin
        have hinv2 := nextPump_inv C S st c hinv (by omega)
        have := ih (S ++ c) (nextPump st c) hinv2
          (fun d hd => hne d (List.mem_cons_of_mem _ hd)) out hfin
        rw [List.flatten_cons, ← List.append_assoc]
        exact this

theorem pump_finished (C : Nat) (chunks : List (List Nat)) (hne : ∀ c ∈ chunks, c ≠ [])
    (out : List Nat) (hfin : pump C chunks = Outcome.finished out) :
    out = redacted chunks.flatten := by
  have := pumpLoop_finished C chunks [] (initPump C) (initPump_inv C) hne out hfin
  rw [List.nil_append] at this
  exact this

/-! ## Input without digits -/

theorem getD_mem (l : List Nat) (i : Nat) (h : i < l.length) : l.getD i 0 ∈ l := by
  rw [getD_eq_getElem l i h]
  exact List.getElem_mem h

theorem filter_digit_free (input : List Nat) (hnd : ∀ c ∈ input, isdigit c = false) :
    filter input input input.length = (input, input.length) := by
  have h1 : (filter input input input.length).1 = input := by
    apply redacted_eq_self
    intro s p hw
    have := hnd _ (getD_mem input p hw.2.1)
    rw [hw.2.2.1] at this
    exact absurd this (by simp)
  have h2 : (filter input input input.length).2 = input.length := by
    rw [filter_snd, if_neg]
    rintro ⟨j, hj, hd⟩
    have := hnd _ (getD_mem input j hj)
    rw [hd] at this
    exact absurd this (by simp)
  exact Prod.ext h1 h2

/-- A first chunk without digits is written out whole by the first pass of
the loop, and nothing is retained. -/
theorem nextPump_digit_free (C : Nat) (input : List Nat)
    (hnd : ∀ c ∈ input, isdigit c = false) (hC : input.length ≤ C) :
    (nextPump (initPump C) input).written = input ∧
    (nextPump (initPump C) input).start_pad = 0 := by
  have hinit := initPump_inv C
  have hst : (initPump C).start_pad = 0 := rfl
  have hinv := nextPump_inv C [] (initPump C) input hinit (by rw [hst]; omega)
  have hpad : (nextPump (initPump C) input).start_pad = 0 := by
    rw [nextPump_eq (initPump C) input C hinit.hib (by rw [hst]; omega)]
    show (initPump C).start_pad + input.length - (filter _ _ _).2 = 0
    rw [filter_snd, if_neg, hst]
    · omega
    · rintro ⟨j, hj, hd⟩
      rw [hst] at hj hd
      rw [blit_getD _ _ _ _ (by rw [hinit.hib]; omega), if_neg (by omega),
        if_pos (by omega)] at hd
      have := hnd _ (getD_mem input (j - 0) (by omega))
      rw [hd] at this
      exact absurd this (by simp)
  refine ⟨?_, hpad⟩
  have hlen := hinv.hlen
  rw [hpad, List.nil_append] at hlen
  apply ext_getD _ _ (by omega)
  intro j hj
  rw [hinv.hwr j hj, List.nil_append]
  have h1 : (filter input input input.length).1 = input := by
    rw [filter_digit_free input hnd]
  show (filter input input input.length).1.getD j 0 = input.getD j 0
  rw [h1]

/-! ## Claims about `filter` -/

/-- C2: for every input (the output starting as a copy of it) and every index
`i` at which the input holds a digit, after `filter` the output holds `'X'` at
`i` if and only if there are indices `s ≤ i ≤ p < n` such that `input[p]` is a
digit, every byte of `input[s..p]` is a digit, a space or a hyphen, the
number of digits in `input[s..p]` is between 14 and 16, and the Luhn sum of
those digits, counted from the right starting at `p` (odd positions weighted
by identity, even positions by double-then-digit-sum), is divisible by 10;
otherwise the output holds `input[i]`. -/
theorem C2_mask_iff_valid_window (input : List Nat) (i : Nat) (hi : i < input.length)
    (hd : isdigit (input.getD i 0) = true) :
    ((filter input input input.length).1.getD i 0 = 88 ↔
      ∃ s p, s ≤ i ∧ i ≤ p ∧ p < input.length ∧ isdigit (input.getD p 0) = true ∧
        (∀ j, s ≤ j → j ≤ p → isRunByte (input.getD j 0) = true) ∧
        14 ≤ (digitsOf input s p).length ∧ (digitsOf input s p).length ≤ 16 ∧
        luhnSum 1 (digitsOf input s p) % 10 = 0) ∧
    ((filter input input input.length).1.getD i 0 ≠ 88 →
      (filter input input input.length).1.getD i 0 = input.getD i 0) := by
  obtain ⟨h1, h2⟩ := filter_getD input input input.length i (Nat.le_refl _) hi
  have hne : input.getD i 0 ≠ 88 := by
    rw [isdigit_iff] at hd
    omega
  refine ⟨⟨?_, ?_⟩, ?_⟩
  · intro h88
    by_cases hm : Masked input input.length i
    · obtain ⟨_, s, p, h3, h4, h5, h6, _, h7, h8⟩ := hm
      exact ⟨s, p, h3, h4, h5, h7, h8⟩
    · rw [h2 hm] at h88
      exact absurd h88 hne
  · rintro ⟨s, p, h3, h4, h5, h6, h7⟩
    exact h1 ⟨hd, s, p, h3, h4, h5, by omega, h5, h6, h7⟩
  · intro hne88
    by_cases hm : Masked input input.length i
    · exact absurd (h1 hm) hne88
    · exact h2 hm

/-- Witness of C2 at the first digit of `56613959932537`. -/
theorem C2_mask_iff_valid_window_witness :
    0 < sample14.length ∧ isdigit (sample14.getD 0 0) = true ∧
    (((filter sample14 sample14 sample14.length).1.getD 0 0 = 88 ↔
      ∃ s p, s ≤ 0 ∧ 0 ≤ p ∧ p < sample14.length ∧ isdigit (sample14.getD p 0) = true ∧
        (∀ j, s ≤ j → j ≤ p → isRunByte (sample14.getD j 0) = true) ∧
        14 ≤ (digitsOf sample14 s p).length ∧ (digitsOf sample14 s p).length ≤ 16 ∧
        luhnSum 1 (digitsOf sample14 s p) % 10 = 0) ∧
    ((filter sample14 sample14 sample14.length).1.getD 0 0 ≠ 88 →
      (filter sample14 sample14 sample14.length).1.getD 0 0 = sample14.getD 0 0)) :=
  ⟨by decide, by decide, C2_mask_iff_valid_window sample14 0 (by decide) (by decide)⟩

/-- C3: `filter` only ever turns digits into the mask: the output keeps its
length, and at every index the output byte is the input byte, or the input
byte is a digit and the output byte is `'X'`; in particular every byte that is
not a digit is unchanged.  (The input array is not written at all: the source
has no assignment to `input[..]`, and the embedding returns only the output
array and the index.) -/
theorem C3_only_digits_become_mask (input : List Nat) :
    (filter input input input.length).1.length = input.length ∧
    (∀ i, (filter input input input.length).1.getD i 0 = input.getD i 0 ∨
      (isdigit (input.getD i 0) = true ∧
        (filter input input input.length).1.getD i 0 = 88)) ∧
    (∀ i, isdigit (input.getD i 0) = false →
      (filter input input input.length).1.getD i 0 = input.getD i 0) := by
  refine ⟨filter_length input input input.length, ?_, ?_⟩
  · intro i
    rcases redacted_cases input i with h | ⟨h1, h2⟩
    · exact Or.inl h
    · exact Or.inr ⟨h1.1, h2⟩
  · intro i hnd
    rcases redacted_cases input i with h | ⟨h1, _⟩
    · exact h
    · rw [h1.1] at hnd
      exact absurd hnd (by simp)

/-- C4: a valid 14-16 digit run is always fully masked.  For every input and
every maximal run `input[a..e]` of digits, spaces and hyphens (bounded on each
side by a byte that is none of these, or by the buffer end) that holds between
14 and 16 digits whose Luhn sum is divisible by 10, `filter` replaces every
digit of the run by `'X'` and leaves its separators unchanged. -/
theorem C4_valid_run_fully_masked (input : List Nat) (a e : Nat) (_hae : a ≤ e)
    (he : e < input.length)
    (hrun : ∀ j, a ≤ j → j ≤ e → isRunByte (input.getD j 0) = true)
    (_hleft : a = 0 ∨ isRunByte (input.getD (a - 1) 0) = false)
    (_hright : e + 1 = input.length ∨ isRunByte (input.getD (e + 1) 0) = false)
    (hk1 : 14 ≤ (digitsOf input a e).length) (hk2 : (digitsOf input a e).length ≤ 16)
    (hluhn : luhnSum 1 (digitsOf input a e) % 10 = 0) :
    ∀ j, a ≤ j → j ≤ e →
      (filter input input input.length).1.getD j 0 =
        if isdigit (input.getD j 0) = true then 88 else input.getD j 0 := by
  intro j haj hje
  by_cases hdj : isdigit (input.getD j 0) = true
  · rw [if_pos hdj]
    exact (filter_getD input input input.length j (Nat.le_refl _) (by omega)).1
      (run_masked input a e he hrun hk1 hk2 hluhn j haj hje hdj)
  · rw [if_neg hdj]
    rcases redacted_cases input j with h | ⟨h1, _⟩
    · exact h
    · exact absurd h1.1 hdj

/-- Witness of C4: the whole of `4111 1111 1111 1111` is such a run, and the two
sample texts come out as `XXXXXXXXXXXXXX` and `XXXX XXXX XXXX XXXX`. -/
theorem C4_valid_run_fully_masked_witness :
    (∀ j, 0 ≤ j → j ≤ 18 →
      (filter sample16 sample16 sample16.length).1.getD j 0 =
        if isdigit (sample16.getD j 0) = true then 88 else sample16.getD j 0) ∧
    (filter sample14 sample14 sample14.length).1 =
      [88, 88, 88, 88, 88, 88, 88, 88, 88, 88, 88, 88, 88, 88] ∧
    (filter sample16 sample16 sample16.length).1 =
      [88, 88, 88, 88, 32, 88, 88, 88, 88, 32, 88, 88, 88, 88, 32, 88, 88, 88, 88] :=
  ⟨C4_valid_run_fully_masked sample16 0 18 (by decide) (by decide)
      (by intro j _ h; interval_cases j <;> rfl) (Or.inl rfl) (Or.inl rfl)
      (by decide) (by decide) (by decide),
    by decide, by decide⟩

/-- C5: too-short runs are never masked.  For every input and every maximal run
`input[a..e]` of digits, spaces and hyphens that holds fewer than 14 digits,
`filter` leaves every byte of the run unchanged, whatever its checksum; and an
input with at most 13 digits in total is returned unchanged. -/
theorem C5_short_run_unchanged (input : List Nat) :
    (∀ a e, a ≤ e → e < input.length →
      (∀ j, a ≤ j → j ≤ e → isRunByte (input.getD j 0) = true) →
      (a = 0 ∨ isRunByte (input.getD (a - 1) 0) = false) →
      (e + 1 = input.length ∨ isRunByte (input.getD (e + 1) 0) = false) →
      (digitsOf input a e).length < 14 →
      ∀ j, a ≤ j → j ≤ e → (filter input input input.length).1.getD j 0 = input.getD j 0) ∧
    ((input.filter isdigit).length ≤ 13 →
      (filter input input input.length).1 = input) := by
  constructor
  · intro a e _ he _ hleft hright hk j haj hje
    rcases redacted_cases input j with h | ⟨⟨_, s, p, h1, h2, h3, hw⟩, _⟩
    · exact h
    · exfalso
      obtain ⟨_, _, _, hwrun, hw14, _⟩ := hw
      have hsa : a ≤ s := by
        by_contra hc
        rcases hleft with h0 | h0
        · omega
        · have := hwrun (a - 1) (by omega) (by omega)
          rw [h0] at this
          exact absurd this (by simp)
      have hpe : p ≤ e := by
        by_contra hc
        rcases hright with h0 | h0
        · omega
        · have := hwrun (e + 1) (by omega) (by omega)
          rw [h0] at this
          exact absurd this (by simp)
      have := digitsOf_length_mono input a s p e hsa hpe
      simp only [MIN_DIGITS] at hw14
      omega
  · intro h13
    apply redacted_eq_self
    intro s p hw
    have h1 := hw.2.2.2.2.1
    have h2 := digitsOf_length_total input s p
    simp only [MIN_DIGITS] at h1
    omega

/-- Witness of C5: `1234567890123` has 13 digits and is returned unchanged. -/
theorem C5_short_run_unchanged_witness :
    (sample13.filter isdigit).length ≤ 13 ∧
    (filter sample13 sample13 sample13.length).1 = sample13 :=
  ⟨by decide, (C5_short_run_unchanged sample13).2 (by decide)⟩

/-- C6, as stated, fails: `1256613959932537` is a run of exactly 16 digits whose
16-digit Luhn sum is 74, not divisible by 10, yet `filter` masks its last 14
digits, which pass the check on their own. -/
theorem C6_counterexample :
    sampleTail14.all isRunByte = true ∧
    (sampleTail14.filter isdigit).length = 16 ∧
    luhnSum 1 (sampleTail14.filter isdigit).reverse % 10 = 4 ∧
    (filter sampleTail14 sampleTail14 sampleTail14.length).1 =
      [49, 50, 88, 88, 88, 88, 88, 88, 88, 88, 88, 88, 88, 88, 88, 88] ∧
    (filter sampleTail14 sampleTail14 sampleTail14.length).1 ≠ sampleTail14 := by
  decide

/-- C6, amended: for every input that consists of a run of exactly 16 digits
(optionally with spaces or hyphens between them), if no stretch of the input
holding 14 or more of its digits has a Luhn sum divisible by 10 (so neither the
16 digits as a whole nor any 14 or 15 consecutive ones pass the check),
`filter` leaves the output identical to the input. -/
theorem C6_no_valid_stretch_unchanged (input : List Nat)
    (_hrun : ∀ c ∈ input, isRunByte c = true)
    (_h16 : (input.filter isdigit).length = 16)
    (hnone : ∀ p, p < input.length → ∀ s, s ≤ p →
      14 ≤ (digitsOf input s p).length → luhnSum 1 (digitsOf input s p) % 10 ≠ 0) :
    (filter input input input.length).1 = input := by
  apply redacted_eq_self
  intro s p hw
  exact hnone p hw.2.1 s hw.1 hw.2.2.2.2.1 hw.2.2.2.2.2.2

/-- Witness of the amended C6: `1234 5678 9012 3457`. -/
theorem C6_no_valid_stretch_unchanged_witness :
    (∀ c ∈ sampleNoLuhn, isRunByte c = true) ∧
    (sampleNoLuhn.filter isdigit).length = 16 ∧
    luhnSum 1 (sampleNoLuhn.filter isdigit).reverse % 10 ≠ 0 ∧
    (filter sampleNoLuhn sampleNoLuhn sampleNoLuhn.length).1 = sampleNoLuhn :=
  ⟨by decide, by decide, by decide,
    C6_no_valid_stretch_unchanged sampleNoLuhn (by decide) (by decide) (by decide)⟩

/-- C7: longest-match bias.  For every input and every digit position `p` such
that the 16 digits ending at `p` are reached leftward through digits, spaces
and hyphens only (the stretch `input[s..p]`), if both the 14-digit window and
the 16-digit window ending at `p` pass the Luhn check, then after `filter` all
16 digits of the 16-digit window are `'X'`. -/
theorem C7_longest_match (input : List Nat) (s p : Nat) (_hsp : s ≤ p)
    (hp : p < input.length) (_hd : isdigit (input.getD p 0) = true)
    (hrun : ∀ j, s ≤ j → j ≤ p → isRunByte (input.getD j 0) = true)
    (h16 : (digitsOf input s p).length = 16)
    (_hluhn14 : luhnSum 1 ((digitsOf input s p).take 14) % 10 = 0)
    (hluhn16 : luhnSum 1 (digitsOf input s p) % 10 = 0) :
    ∀ j, s ≤ j → j ≤ p → isdigit (input.getD j 0) = true →
      (filter input input input.length).1.getD j 0 = 88 := by
  intro j hsj hjp hdj
  exact (filter_getD input input input.length j (Nat.le_refl _) (by omega)).1
    (run_masked input s p hp hrun (by omega) (by omega) hluhn16 j hsj hjp hdj)

/-- Witness of C7: in `1856613959932537` both the last 14 and all 16 digits pass
the check, and all 16 are masked. -/
theorem C7_longest_match_witness :
    luhnSum 1 ((digitsOf sampleBoth 0 15).take 14) % 10 = 0 ∧
    luhnSum 1 (digitsOf sampleBoth 0 15) % 10 = 0 ∧
    (∀ j, 0 ≤ j → j ≤ 15 → isdigit (sampleBoth.getD j 0) = true →
      (filter sampleBoth sampleBoth sampleBoth.length).1.getD j 0 = 88) :=
  ⟨by decide, by decide,
    C7_longest_match sampleBoth 0 15 (by decide) (by decide) (by decide)
      (by intro j _ h; interval_cases j <;> rfl) (by decide) (by decide) (by decide)⟩

/-- C8: idempotence.  Writing `redacted x` for the output `filter` produces
from `x` (the output starting as a copy of `x`), a second pass changes
nothing: `redacted (redacted x) = redacted x`. -/
theorem C8_idempotent (x : List Nat) : redacted (redacted x) = redacted x := by
  apply ext_getD _ _ (redacted_length (redacted x))
  intro i _
  rcases redacted_cases (redacted x) i with h | ⟨⟨hd, s, p, h1, h2, h3, hw⟩, _⟩
  · exact h
  · exfalso
    rw [redacted_length] at h3
    have hsame : ∀ j, isRunByte ((redacted x).getD j 0) = true →
        (redacted x).getD j 0 = x.getD j 0 := by
      intro j hj
      rcases redacted_cases x j with h5 | ⟨_, h5⟩
      · exact h5
      · rw [h5] at hj
        exact absurd hj (by decide)
    have hwx : Window x s p :=
      (Window_congr (redacted x) x s p (by rw [redacted_length]; exact h3) h3
        (fun j hj1 hj2 => hsame j (hw.2.2.2.1 j hj1 hj2))).1 hw
    have hdx : isdigit (x.getD i 0) = true := by
      rw [← hsame i (isRunByte_of_isdigit hd)]; exact hd
    have h88 := (redacted_getD x i (by omega)).1 ⟨hdx, s, p, h1, h2, h3, hwx⟩
    rw [h88] at hd
    exact absurd hd (by decide)

/-- C9: safe-anchor soundness.  If `a` is the index `filter` returns on `s`,
then for every `t` the first `a` bytes of the redaction of `s ++ t` are the
first `a` bytes of the redaction of `s`. -/
theorem C9_safe_anchor_sound (s t : List Nat) :
    (redacted (s ++ t)).take (safeAnchor s) = (redacted s).take (safeAnchor s) := by
  have hle := safeAnchor_le s
  obtain ⟨b, hb0, hb1, hb2⟩ := safeAnchor_boundary s
  apply ext_getD
  · rw [List.length_take, List.length_take, redacted_length, redacted_length,
      List.length_append]
    omega
  · intro i hi
    rw [List.length_take] at hi
    rw [getD_take, getD_take, if_pos (by omega), if_pos (by omega)]
    exact redacted_append_getD s t b (safeAnchor s) i hb0 hle hb1 hb2 (by omega)

/-! ## Claims about the pump -/

/-- C1: chunk-invariance of the pump.  For every buffer size, every input and
every way of cutting it into non-empty chunks, if the run of `main` reaches
the end of the input (each chunk fitted the remaining capacity when it was
read, and the run did not stop with the capacity error), then the bytes it
wrote are `filter`'s redaction of the whole input, and they are the bytes it
writes when the whole input arrives as a single chunk. -/
theorem C1_chunk_invariance (C : Nat) (chunks : List (List Nat)) (out : List Nat)
    (hne : ∀ c ∈ chunks, c ≠ []) (hfin : pump C chunks = Outcome.finished out) :
    out = (filter chunks.flatten chunks.flatten chunks.flatten.length).1 ∧
    ∀ out1, pump C [chunks.flatten] = Outcome.finished out1 → out1 = out := by
  have h1 : out = redacted chunks.flatten := pump_finished C chunks hne out hfin
  refine ⟨h1, ?_⟩
  intro out1 hfin1
  rw [h1]
  by_cases hnil : chunks.flatten = []
  · rw [hnil] at hfin1 ⊢
    have h2 : pump C [[]] = Outcome.finished (redacted []) := by
      unfold pump
      rw [pumpLoop, if_pos List.length_nil]
      exact finish_inv C [] (initPump C) (initPump_inv C)
    rw [h2] at hfin1
    exact (Outcome.finished.inj hfin1).symm
  · have h2 := pump_finished C [chunks.flatten]
      (by
        intro c hc
        rw [List.mem_singleton] at hc
        rw [hc]
        exact hnil) out1 hfin1
    rw [List.flatten_cons, List.flatten_nil, List.append_nil] at h2
    exact h2

/-- Witness of C1: `a 56613959932537;1` read in three chunks with a buffer of 32
bytes. -/
theorem C1_chunk_invariance_witness :
    (∀ c ∈ sampleChunks, c ≠ []) ∧
    pump 32 sampleChunks = Outcome.finished sampleChunksOut ∧
    sampleChunksOut =
      (filter sampleChunks.flatten sampleChunks.flatten sampleChunks.flatten.length).1 ∧
    ∀ out1, pump 32 [sampleChunks.flatten] = Outcome.finished out1 →
      out1 = sampleChunksOut :=
  ⟨by decide, by decide,
    C1_chunk_invariance 32 sampleChunks sampleChunksOut (by decide) (by decide)⟩

/-! ## More on the safe anchor -/

theorem exists_digit_index (input : List Nat) (h : ∃ c ∈ input, isdigit c = true) :
    ∃ j, j < input.length ∧ isdigit (input.getD j 0) = true := by
  obtain ⟨c, hc, hd⟩ := h
  obtain ⟨j, hj, hjc⟩ := List.mem_iff_getElem.1 hc
  refine ⟨j, hj, ?_⟩
  rw [getD_eq_getElem input j hj, hjc]
  exact hd

theorem lastDelim_eq_zero (input : List Nat) :
    ∀ k, (∀ j, j < k → isRunByte (input.getD j 0) = true) → lastDelim input k = 0 := by
  intro k
  induction k with
  | zero => intro _; rfl
  | succ k ih =>
    intro h
    rw [lastDelim_succ_run input k (h k (by omega))]
    exact ih (fun j hj => h j (by omega))

theorem lastDelim_eq_succ (input : List Nat) (d : Nat)
    (hd : isRunByte (input.getD d 0) = false) :
    ∀ k, d < k → (∀ j, d < j → j < k → isRunByte (input.getD j 0) = true) →
      lastDelim input k = d + 1 := by
  intro k
  induction k with
  | zero => intro h; omega
  | succ k ih =>
    intro hk h
    rcases Nat.eq_or_lt_of_le (Nat.le_of_lt_succ hk) with h1 | h1
    · subst h1
      rw [lastDelim_succ_delim input d (by rw [hd]; simp)]
    · rw [lastDelim_succ_run input k (h k h1 (by omega))]
      exact ih h1 (fun j hj1 hj2 => h j hj1 (by omega))

/-! ## Claims about the safe anchor and the lookup table -/

/-- C12, as stated, fails: the text `1;` holds a digit, and `filter` returns 2,
the length of the text, because its last byte is a hard delimiter. -/
theorem C12_counterexample :
    sampleDigitDelim ≠ [] ∧
    (filter sampleDigitDelim sampleDigitDelim sampleDigitDelim.length).2
      = sampleDigitDelim.length ∧
    isdigit (sampleDigitDelim.getD 0 0) = true := by
  decide

/-- C12, amended: for every non-empty input of length `n`, if `filter` returns
`n` then the input contains no digit, or its last byte is neither a digit, a
space nor a hyphen. -/
theorem C12_full_anchor_cases (input : List Nat) (hne : input ≠ [])
    (hret : (filter input input input.length).2 = input.length) :
    (∀ c ∈ input, isdigit c = false) ∨
      isRunByte (input.getD (input.length - 1) 0) = false := by
  have hpos : 0 < input.length := List.length_pos.2 hne
  rw [filter_snd] at hret
  by_cases h : ∃ j, j < input.length ∧ isdigit (input.getD j 0) = true
  · right
    rw [if_pos h] at hret
    have := (lastDelim_spec input input.length).1 (by omega)
    rw [hret] at this
    simpa using this
  · left
    intro c hc
    by_contra hcd
    exact h (exists_digit_index input ⟨c, hc, by simpa using hcd⟩)

/-- Witness of the amended C12: on `1;` the index returned is the length, and
the last byte `;` is a hard delimiter. -/
theorem C12_full_anchor_cases_witness :
    sampleDigitDelim ≠ [] ∧
    (filter sampleDigitDelim sampleDigitDelim sampleDigitDelim.length).2
      = sampleDigitDelim.length ∧
    ((∀ c ∈ sampleDigitDelim, isdigit c = false) ∨
      isRunByte (sampleDigitDelim.getD (sampleDigitDelim.length - 1) 0) = false) :=
  ⟨by decide, by decide, C12_full_anchor_cases sampleDigitDelim (by decide) (by decide)⟩

/-- C17, as stated, fails: a single space is an input in which every byte is a
digit, a space or a hyphen, and `filter` returns 1 on it, not 0, because no
digit was seen. -/
theorem C17_counterexample :
    (∀ c ∈ sampleSpace, isRunByte c = true) ∧
    (filter sampleSpace sampleSpace sampleSpace.length).2 = 1 := by
  decide

/-- C17, amended: for every input in which every byte is a digit, a space or a
hyphen and at least one byte is a digit, `filter` returns 0. -/
theorem C17_no_delimiter_not_flushable (input : List Nat)
    (hrun : ∀ c ∈ input, isRunByte c = true) (hdig : ∃ c ∈ input, isdigit c = true) :
    (filter input input input.length).2 = 0 := by
  rw [filter_snd, if_pos (exists_digit_index input hdig)]
  exact lastDelim_eq_zero input input.length (fun j hj => hrun _ (getD_mem input j hj))

/-- Witness of the amended C17: `4111 1111 1111 1111`. -/
theorem C17_no_delimiter_not_flushable_witness :
    (∀ c ∈ sample16, isRunByte c = true) ∧ (∃ c ∈ sample16, isdigit c = true) ∧
    (filter sample16 sample16 sample16.length).2 = 0 :=
  ⟨by decide, by decide, C17_no_delimiter_not_flushable sample16 (by decide) (by decide)⟩

/-- C19: the even-position lookup table is the double-then-digit-sum rule.  For
every digit value `d` in `0..9` and every position `k ≥ 1`,
`luhn_digit(k, '0'+d)` is `d` when `k` is odd and the sum of the decimal digits
of `2*d` when `k` is even, so `LUHN_SUM_LOOKUP[d] = (2*d)/10 + (2*d)%10`; and
for a digit character the index `cValue - '0'` is not negative and lies within
the table. -/
theorem C19_lookup_is_double_digit_sum (d k : Nat) (hd : d ≤ 9) (_hk : 1 ≤ k) :
    (k % 2 = 1 → luhn_digit k (48 + d) = d) ∧
    (k % 2 = 0 → luhn_digit k (48 + d) = (Nat.digits 10 (2 * d)).sum) ∧
    LUHN_SUM_LOOKUP.getD d 0 = (2 * d) / 10 + (2 * d) % 10 ∧
    (∀ c, isdigit c = true → 48 ≤ c ∧ c - 48 < LUHN_SUM_LOOKUP.length) := by
  refine ⟨?_, ?_, ?_, ?_⟩
  · intro h
    simp [luhn_digit, h]
  · intro h
    simp only [luhn_digit, h, if_true, Nat.add_sub_cancel_left, LUHN_SUM_LOOKUP]
    interval_cases d <;> simp
  · simp only [LUHN_SUM_LOOKUP]
    interval_cases d <;> rfl
  · intro c hc
    rw [isdigit_iff] at hc
    simp only [LUHN_SUM_LOOKUP, List.length_cons, List.length_nil]
    omega

/-- Witness of C19 at the digit `9` in position 2: twice nine is 18, and
`1 + 8 = 9`. -/
theorem C19_lookup_is_double_digit_sum_witness :
    9 ≤ 9 ∧ 1 ≤ 2 ∧ luhn_digit 2 (48 + 9) = 9 ∧ (Nat.digits 10 (2 * 9)).sum = 9 :=
  ⟨by decide, by decide,
    by
      have h := (C19_lookup_is_double_digit_sum 9 2 (by decide) (by decide)).2.1 (by decide)
      have h2 : (Nat.digits 10 (2 * 9)).sum = 9 := by norm_num
      exact ⟨by rw [h, h2], h2⟩⟩

/-! ## Claims about appended input and chunking -/

/-- C15: masking is monotone under appended input.  For every `s`, `t` and
index `i < |s|`, if `filter` masks position `i` when run on `s`, it masks it
when run on `s ++ t`.  Hence a scan whose output buffer carries the redaction
of `s` followed by a copy of the new bytes `t` ends with the same output as a
fresh scan of `s ++ t`. -/
theorem C15_masking_monotone (s t : List Nat) :
    (∀ i, i < s.length → isdigit (s.getD i 0) = true → (redacted s).getD i 0 = 88 →
      (redacted (s ++ t)).getD i 0 = 88) ∧
    (filter (redacted s ++ t) (s ++ t) (s ++ t).length).1 = redacted (s ++ t) := by
  constructor
  · intro i hi hd h88
    have hm : Masked s s.length i := by
      by_contra hc
      rw [(redacted_getD s i hi).2 hc] at h88
      rw [isdigit_iff] at hd
      omega
    exact (redacted_getD (s ++ t) i (by rw [List.length_append]; omega)).1
      (Masked_append s t i hm)
  · apply ext_getD
    · rw [filter_length, redacted_length, List.length_append, List.length_append,
        redacted_length]
    · intro i hi
      rw [filter_length, List.length_append, redacted_length] at hi
      have hi2 : i < (s ++ t).length := by rw [List.length_append]; exact hi
      obtain ⟨f1, f2⟩ := filter_getD (redacted s ++ t) (s ++ t) (s ++ t).length i
        (Nat.le_refl _) (by rw [List.length_append, redacted_length]; exact hi)
      by_cases hm : Masked (s ++ t) (s ++ t).length i
      · rw [f1 hm, (redacted_getD (s ++ t) i hi2).1 hm]
      · rw [f2 hm, (redacted_getD (s ++ t) i hi2).2 hm, getD_append, getD_append,
          redacted_length]
        by_cases his : i < s.length
        · rw [if_pos his, if_pos his]
          exact (redacted_getD s i his).2 (fun h => hm (Masked_append s t i h))
        · rw [if_neg his, if_neg his]

/-- C13: whether the pump stops with the capacity error depends on the
chunking.  With a buffer of 4 bytes, the stream ` 111;` read as ` 111` and then
`;` stops with the capacity error, while read as a space and then `111;` the
run completes and writes the whole redacted stream. -/
theorem C13_capacity_error_depends_on_chunking :
    ∃ (C : Nat) (stream : List Nat) (chunksA chunksB : List (List Nat)),
      C = 4 ∧ chunksA = sampleSplitA ∧ chunksB = sampleSplitB ∧
      chunksA.flatten = stream ∧ chunksB.flatten = stream ∧
      (∀ c ∈ chunksA, c ≠ []) ∧ (∀ c ∈ chunksB, c ≠ []) ∧
      (∃ w, pump C chunksA = Outcome.capacityError w) ∧
      pump C chunksB = Outcome.finished (redacted stream) :=
  ⟨4, [32, 49, 49, 49, 59], sampleSplitA, sampleSplitB, rfl, rfl, rfl, by decide, by decide,
    by decide, by decide, ⟨[], by decide⟩, by decide⟩

/-! ## The ghost counters agree with the scan -/

theorem walkT_succ_full (input : List Nat) (a m dc sum sm sa : Nat) (h : ¬ dc < MAX_DIGITS) :
    walkT input a (m + 1) dc sum sm sa = ((sm, sa), [], 0) := by
  rw [walkT, if_neg h]

theorem walkT_succ_digit (input : List Nat) (a m dc sum sm sa : Nat) (h : dc < MAX_DIGITS)
    (hd : isdigit (input.getD m 0) = true) :
    walkT input a (m + 1) dc sum sm sa =
      ((walkT input a m (dc + 1) (sum + luhn_digit (dc + 1) (input.getD m 0))
          (if MIN_DIGITS ≤ dc + 1 ∧ (sum + luhn_digit (dc + 1) (input.getD m 0)) % 10 = 0
            then m else sm) sa).1,
        (a, m) :: (walkT input a m (dc + 1) (sum + luhn_digit (dc + 1) (input.getD m 0))
          (if MIN_DIGITS ≤ dc + 1 ∧ (sum + luhn_digit (dc + 1) (input.getD m 0)) % 10 = 0
            then m else sm) sa).2.1,
        (walkT input a m (dc + 1) (sum + luhn_digit (dc + 1) (input.getD m 0))
          (if MIN_DIGITS ≤ dc + 1 ∧ (sum + luhn_digit (dc + 1) (input.getD m 0)) % 10 = 0
            then m else sm) sa).2.2) := by
  rw [walkT, if_pos h, if_pos hd]

theorem walkT_succ_delim (input : List Nat) (a m dc sum sm sa : Nat) (h : dc < MAX_DIGITS)
    (hd : ¬ isdigit (input.getD m 0) = true)
    (hs : input.getD m 0 ≠ 32 ∧ input.getD m 0 ≠ 45) :
    walkT input a (m + 1) dc sum sm sa =
      ((sm, if sa = 0 then m + 1 else sa), [(a, m)], if sa = 0 then 1 else 0) := by
  rw [walkT, if_pos h, if_neg hd, if_pos hs]

theorem walkT_succ_sep (input : List Nat) (a m dc sum sm sa : Nat) (h : dc < MAX_DIGITS)
    (hd : ¬ isdigit (input.getD m 0) = true)
    (hs : ¬ (input.getD m 0 ≠ 32 ∧ input.getD m 0 ≠ 45)) :
    walkT input a (m + 1) dc sum sm sa =
      ((walkT input a m dc sum (if MIN_DIGITS ≤ dc ∧ sum % 10 = 0 then m else sm) sa).1,
        (a, m) ::
          (walkT input a m dc sum (if MIN_DIGITS ≤ dc ∧ sum % 10 = 0 then m else sm) sa).2.1,
        (walkT input a m dc sum (if MIN_DIGITS ≤ dc ∧ sum % 10 = 0 then m else sm) sa).2.2) := by
  rw [walkT, if_pos h, if_neg hd, if_neg hs]

/-- Dropping the ghost results of `walkT` gives `walk`. -/
theorem walkT_fst (input : List Nat) (a : Nat) :
    ∀ m dc sum sm sa, (walkT input a m dc sum sm sa).1 = walk input m dc sum sm sa := by
  intro m
  induction m with
  | zero => intro dc sum sm sa; rfl
  | succ m ih =>
    intro dc sum sm sa
    by_cases h1 : dc < MAX_DIGITS
    · by_cases h2 : isdigit (input.getD m 0) = true
      · rw [walkT_succ_digit input a m dc sum sm sa h1 h2,
          walk_succ_digit input m dc sum sm sa h1 h2]
        exact ih _ _ _ _
      · by_cases h3 : input.getD m 0 ≠ 32 ∧ input.getD m 0 ≠ 45
        · rw [walkT_succ_delim input a m dc sum sm sa h1 h2 h3,
            walk_succ_delim input m dc sum sm sa h1 h2 h3]
        · rw [walkT_succ_sep input a m dc sum sm sa h1 h2 h3,
            walk_succ_sep input m dc sum sm sa h1 h2 h3]
          exact ih _ _ _ _
    · rw [walkT_succ_full input a m dc sum sm sa h1, walk_succ_full input m dc sum sm sa h1]

/-- The visits recorded by `walkT` are the marks of `walkMarks`. -/
theorem walkT_marks (input : List Nat) (a : Nat) :
    ∀ m dc sum sm sa,
      (walkT input a m dc sum sm sa).2.1 = (walkMarks input m dc).map (fun x => (a, x)) := by
  intro m
  induction m with
  | zero => intro dc sum sm sa; rfl
  | succ m ih =>
    intro dc sum sm sa
    by_cases h1 : dc < MAX_DIGITS
    · by_cases h2 : isdigit (input.getD m 0) = true
      · rw [walkT_succ_digit input a m dc sum sm sa h1 h2, walkMarks, if_pos h1, if_pos h2,
          List.map_cons]
        show (a, m) :: _ = _
        rw [ih]
      · by_cases h3 : input.getD m 0 ≠ 32 ∧ input.getD m 0 ≠ 45
        · rw [walkT_succ_delim input a m dc sum sm sa h1 h2 h3, walkMarks, if_pos h1,
            if_neg h2, if_pos h3]
          rfl
        · rw [walkT_succ_sep input a m dc sum sm sa h1 h2 h3, walkMarks, if_pos h1,
            if_neg h2, if_neg h3, List.map_cons]
          show (a, m) :: _ = _
          rw [ih]
    · rw [walkT_succ_full input a m dc sum sm sa h1, walkMarks, if_neg h1]
      rfl

/-- The inner walk assigns `safe_anchor` exactly when it turns it from zero to
a non-zero value. -/
theorem walkT_assigns (input : List Nat) (a : Nat) :
    ∀ m dc sum sm sa,
      (walkT input a m dc sum sm sa).2.2 =
        if sa = 0 ∧ (walk input m dc sum sm sa).2 ≠ 0 then 1 else 0 := by
  intro m
  induction m with
  | zero =>
    intro dc sum sm sa
    rw [if_neg]
    · rfl
    · rintro ⟨h1, h2⟩
      exact h2 h1
  | succ m ih =>
    intro dc sum sm sa
    by_cases h1 : dc < MAX_DIGITS
    · by_cases h2 : isdigit (input.getD m 0) = true
      · rw [walkT_succ_digit input a m dc sum sm sa h1 h2,
          walk_succ_digit input m dc sum sm sa h1 h2]
        exact ih _ _ _ _
      · by_cases h3 : input.getD m 0 ≠ 32 ∧ input.getD m 0 ≠ 45
        · rw [walkT_succ_delim input a m dc sum sm sa h1 h2 h3,
            walk_succ_delim input m dc sum sm sa h1 h2 h3]
          by_cases hsa : sa = 0
          · simp [hsa]
          · simp [hsa]
        · rw [walkT_succ_sep input a m dc sum sm sa h1 h2 h3,
            walk_succ_sep input m dc sum sm sa h1 h2 h3]
          exact ih _ _ _ _
    · rw [walkT_succ_full input a m dc sum sm sa h1, walk_succ_full input m dc sum sm sa h1,
        if_neg]
      rintro ⟨h, h2⟩
      exact h2 h

theorem scanT_succ_digit (input : List Nat) (k : Nat) (out : List Nat) (sd : Bool) (sa : Nat)
    (hd : isdigit (input.getD k 0) = true) :
    scanT input (k + 1) out sd sa =
      ((scanT input k
          (redact input
            (k + 1 - (walkT input k k 1 (luhn_digit 1 (input.getD k 0)) (k + 1) sa).1.1)
            (walkT input k k 1 (luhn_digit 1 (input.getD k 0)) (k + 1) sa).1.1 out)
          true (walkT input k k 1 (luhn_digit 1 (input.getD k 0)) (k + 1) sa).1.2).1,
        (walkT input k k 1 (luhn_digit 1 (input.getD k 0)) (k + 1) sa).2.1 ++
          (scanT input k
            (redact input
              (k + 1 - (walkT input k k 1 (luhn_digit 1 (input.getD k 0)) (k + 1) sa).1.1)
              (walkT input k k 1 (luhn_digit 1 (input.getD k 0)) (k + 1) sa).1.1 out)
            true (walkT input k k 1 (luhn_digit 1 (input.getD k 0)) (k + 1) sa).1.2).2.1,
        (walkT input k k 1 (luhn_digit 1 (input.getD k 0)) (k + 1) sa).2.2 +
          (scanT input k
            (redact input
              (k + 1 - (walkT input k k 1 (luhn_digit 1 (input.getD k 0)) (k + 1) sa).1.1)
              (walkT input k k 1 (luhn_digit 1 (input.getD k 0)) (k + 1) sa).1.1 out)
            true (walkT input k k 1 (luhn_digit 1 (input.getD k 0)) (k + 1) sa).1.2).2.2) := by
  rw [scanT, if_pos hd]

theorem scanT_succ_delim (input : List Nat) (k : Nat) (out : List Nat) (sd : Bool) (sa : Nat)
    (hd : ¬ isdigit (input.getD k 0) = true)
    (hs : sa = 0 ∧ input.getD k 0 ≠ 32 ∧ input.getD k 0 ≠ 45) :
    scanT input (k + 1) out sd sa =
      ((scanT input k out sd (k + 1)).1, (scanT input k out sd (k + 1)).2.1,
        1 + (scanT input k out sd (k + 1)).2.2) := by
  rw [scanT, if_neg hd, if_pos hs]

theorem scanT_succ_other (input : List Nat) (k : Nat) (out : List Nat) (sd : Bool) (sa : Nat)
    (hd : ¬ isdigit (input.getD k 0) = true)
    (hs : ¬ (sa = 0 ∧ input.getD k 0 ≠ 32 ∧ input.getD k 0 ≠ 45)) :
    scanT input (k + 1) out sd sa = scanT input k out sd sa := by
  rw [scanT, if_neg hd, if_neg hs]

/-- Dropping the ghost results of `scanT` gives `scan`. -/
theorem scanT_fst (input : List Nat) :
    ∀ k out sd sa, (scanT input k out sd sa).1 = scan input k out sd sa := by
  intro k
  induction k with
  | zero => intro out sd sa; rfl
  | succ k ih =>
    intro out sd sa
    by_cases hd : isdigit (input.getD k 0) = true
    · rw [scanT_succ_digit input k out sd sa hd, scan_succ_digit input k out sd sa hd]
      show (scanT input k _ true _).1 = _
      rw [ih, walkT_fst]
    · by_cases hs : sa = 0 ∧ input.getD k 0 ≠ 32 ∧ input.getD k 0 ≠ 45
      · rw [scanT_succ_delim input k out sd sa hd hs, scan_succ_delim input k out sd sa hd hs]
        exact ih _ _ _
      · rw [scanT_succ_other input k out sd sa hd hs, scan_succ_other input k out sd sa hd hs]
        exact ih _ _ _

theorem scan_safe_of_ne (input : List Nat) (k : Nat) (out : List Nat) (sd : Bool) (sa : Nat)
    (h : sa ≠ 0) : (scan input k out sd sa).2.2 = sa := by
  rw [scan_safe, if_neg h]

/-- The scan assigns `safe_anchor` exactly when it turns it from zero to a
non-zero value. -/
theorem scanT_assigns (input : List Nat) :
    ∀ k out sd sa,
      (scanT input k out sd sa).2.2 =
        if sa = 0 ∧ (scan input k out sd sa).2.2 ≠ 0 then 1 else 0 := by
  intro k
  induction k with
  | zero =>
    intro out sd sa
    rw [if_neg]
    · rfl
    · rintro ⟨h1, h2⟩
      exact h2 h1
  | succ k ih =>
    intro out sd sa
    by_cases hd : isdigit (input.getD k 0) = true
    · rw [scanT_succ_digit input k out sd sa hd, scan_succ_digit input k out sd sa hd]
      show (walkT input k k 1 _ (k + 1) sa).2.2 + (scanT input k _ true _).2.2 = _
      rw [ih, walkT_assigns, walkT_fst]
      have hv1 : sa ≠ 0 →
          (walk input k 1 (luhn_digit 1 (input.getD k 0)) (k + 1) sa).2 = sa :=
        walk_snd_of_ne input k 1 _ (k + 1) sa
      have hv2 : ∀ X : List Nat,
          (walk input k 1 (luhn_digit 1 (input.getD k 0)) (k + 1) sa).2 ≠ 0 →
          (scan input k X true
            (walk input k 1 (luhn_digit 1 (input.getD k 0)) (k + 1) sa).2).2.2 =
            (walk input k 1 (luhn_digit 1 (input.getD k 0)) (k + 1) sa).2 :=
        fun X h => scan_safe_of_ne input k X true _ h
      generalize (walk input k 1 (luhn_digit 1 (input.getD k 0)) (k + 1) sa).2 = v
        at hv1 hv2 ⊢
      generalize (redact input
        (k + 1 - (walk input k 1 (luhn_digit 1 (input.getD k 0)) (k + 1) sa).1)
        (walk input k 1 (luhn_digit 1 (input.getD k 0)) (k + 1) sa).1 out) = X
      have hv3 := hv2 X
      generalize (scan input k X true v).2.2 = f at hv3 ⊢
      by_cases hsa : sa = 0
      · by_cases hv : v = 0
        · simp [hsa, hv]
        · have hf : f = v := hv3 hv
          simp [hsa, hv, hf]
      · have hv : v = sa := hv1 hsa
        have hf : f = v := hv3 (by omega)
        simp [hsa, hv, hf]
    · by_cases hs : sa = 0 ∧ input.getD k 0 ≠ 32 ∧ input.getD k 0 ≠ 45
      · rw [scanT_succ_delim input k out sd sa hd hs, scan_succ_delim input k out sd sa hd hs]
        show 1 + (scanT input k out sd (k + 1)).2.2 = _
        rw [ih, if_neg (fun h => absurd h.1 (by omega)), if_pos]
        refine ⟨hs.1, ?_⟩
        rw [scan_safe_of_ne input k out sd (k + 1) (by omega)]
        omega
      · rw [scanT_succ_other input k out sd sa hd hs, scan_succ_other input k out sd sa hd hs]
        exact ih _ _ _

/-- C14: the exact value of the safe anchor.  For every input of length `n`,
`filter` returns `n` if the input contains no digit; otherwise it returns
`d + 1` where `d` is the index of the rightmost byte that is neither a digit, a
space nor a hyphen, and `0` if there is no such byte.  The result lies in
`[0, n]`, and one call executes at most one assignment to `safe_anchor` (the
ghost counter of `scanT`, whose other results are those of `scan`). -/
theorem C14_safe_anchor_value (input : List Nat) :
    ((∀ j, j < input.length → isdigit (input.getD j 0) = false) →
      (filter input input input.length).2 = input.length) ∧
    ((∃ j, j < input.length ∧ isdigit (input.getD j 0) = true) →
      (∀ d, d < input.length → isRunByte (input.getD d 0) = false →
        (∀ j, d < j → j < input.length → isRunByte (input.getD j 0) = true) →
        (filter input input input.length).2 = d + 1) ∧
      ((∀ j, j < input.length → isRunByte (input.getD j 0) = true) →
        (filter input input input.length).2 = 0)) ∧
    (filter input input input.length).2 ≤ input.length ∧
    (scanT input input.length input false 0).1 = scan input input.length input false 0 ∧
    filterAssigns input input input.length ≤ 1 := by
  refine ⟨?_, ?_, safeAnchor_le input, scanT_fst input _ _ _ _, ?_⟩
  · intro h
    rw [filter_snd, if_neg]
    rintro ⟨j, hj, hd⟩
    rw [h j hj] at hd
    exact absurd hd (by simp)
  · intro h
    constructor
    · intro d hd hdel hrun
      rw [filter_snd, if_pos h]
      exact lastDelim_eq_succ input d hdel input.length hd hrun
    · intro hrun
      rw [filter_snd, if_pos h]
      exact lastDelim_eq_zero input input.length hrun
  · unfold filterAssigns
    rw [scanT_assigns]
    split_ifs
    · exact Nat.le_refl _
    · exact Nat.zero_le _

/-! ## The work of the inner walks -/

theorem walkMarks_full (input : List Nat) (k d : Nat) (h : ¬ d < MAX_DIGITS) :
    walkMarks input k d = [] := by
  cases k with
  | zero => rfl
  | succ k => rw [walkMarks, if_neg h]

theorem markCost_digit (input : List Nat) (wt : Nat → Nat) (k d : Nat) (h : d < MAX_DIGITS)
    (hd : isdigit (input.getD k 0) = true) :
    ((walkMarks input (k + 1) d).map wt).sum =
      wt k + ((walkMarks input k (d + 1)).map wt).sum := by
  rw [walkMarks, if_pos h, if_pos hd, List.map_cons, List.sum_cons]

theorem markCost_other (input : List Nat) (wt : Nat → Nat) (k d : Nat)
    (hd : ¬ isdigit (input.getD k 0) = true) :
    ((walkMarks input (k + 1) d).map wt).sum ≤
      wt k + ((walkMarks input k d).map wt).sum := by
  rw [walkMarks]
  split_ifs
  · rw [List.map_cons, List.sum_cons, List.map_nil, List.sum_nil]
    omega
  · rw [List.map_cons, List.sum_cons]
  · rw [List.map_nil, List.sum_nil]
    omega

/-- The weighted count of the passes through the inner loop, together with the
passes that walks from the current position with 1..15 digits already counted
would still make, is at most 15 times the weight of the positions scanned. -/
theorem scanT_cost (input : List Nat) (wt : Nat → Nat) :
    ∀ k out sd sa,
      ((scanT input k out sd sa).2.1.map (fun v => wt v.2)).sum +
        Finset.sum (Finset.range 15) (fun d => ((walkMarks input k (d + 1)).map wt).sum)
      ≤ 15 * Finset.sum (Finset.range k) (fun m => wt m) := by
  intro k
  induction k with
  | zero =>
    intro out sd sa
    simp [scanT, walkMarks]
  | succ k ih =>
    intro out sd sa
    rw [Finset.sum_range_succ (fun m => wt m) k]
    by_cases hd : isdigit (input.getD k 0) = true
    · have hT : ((scanT input (k + 1) out sd sa).2.1.map (fun v => wt v.2)).sum =
          ((walkMarks input k 1).map wt).sum +
            ((scanT input k
              (redact input
                (k + 1 - (walkT input k k 1 (luhn_digit 1 (input.getD k 0)) (k + 1) sa).1.1)
                (walkT input k k 1 (luhn_digit 1 (input.getD k 0)) (k + 1) sa).1.1 out)
              true (walkT input k k 1 (luhn_digit 1 (input.getD k 0)) (k + 1) sa).1.2).2.1.map
                (fun v => wt v.2)).sum := by
        rw [scanT_succ_digit input k out sd sa hd]
        show (List.map (fun v : Nat × Nat => wt v.2) (_ ++ _)).sum = _
        rw [List.map_append, List.sum_append, walkT_marks, List.map_map]
        rfl
      have h1 : Finset.sum (Finset.range 15)
            (fun d => ((walkMarks input (k + 1) (d + 1)).map wt).sum) =
          Finset.sum (Finset.range 15)
            (fun d => wt k + ((walkMarks input k (d + 1 + 1)).map wt).sum) := by
        apply Finset.sum_congr rfl
        intro d hd15
        rw [Finset.mem_range] at hd15
        exact markCost_digit input wt k (d + 1) (by simp only [MAX_DIGITS]; omega) hd
      have h2 : Finset.sum (Finset.range 15)
            (fun d => wt k + ((walkMarks input k (d + 1 + 1)).map wt).sum) =
          15 * wt k + Finset.sum (Finset.range 15)
            (fun d => ((walkMarks input k (d + 1 + 1)).map wt).sum) := by
        rw [Finset.sum_add_distrib, Finset.sum_const, Finset.card_range, smul_eq_mul]
      have h3 : Finset.sum (Finset.range 15)
            (fun d => ((walkMarks input k (d + 1 + 1)).map wt).sum) =
          Finset.sum (Finset.range 14)
            (fun d => ((walkMarks input k (d + 1 + 1)).map wt).sum) +
          ((walkMarks input k 16).map wt).sum :=
        Finset.sum_range_succ (fun d => ((walkMarks input k (d + 1 + 1)).map wt).sum) 14
      have h4 : ((walkMarks input k 16).map wt).sum = 0 := by
        rw [walkMarks_full input k 16 (by simp [MAX_DIGITS])]
        rfl
      have h5 : Finset.sum (Finset.range 15)
            (fun d => ((walkMarks input k (d + 1)).map wt).sum) =
          Finset.sum (Finset.range 14)
            (fun d => ((walkMarks input k (d + 1 + 1)).map wt).sum) +
          ((walkMarks input k 1).map wt).sum :=
        Finset.sum_range_succ' (fun d => ((walkMarks input k (d + 1)).map wt).sum) 14
      have h6 := ih
        (redact input
          (k + 1 - (walkT input k k 1 (luhn_digit 1 (input.getD k 0)) (k + 1) sa).1.1)
          (walkT input k k 1 (luhn_digit 1 (input.getD k 0)) (k + 1) sa).1.1 out)
        true (walkT input k k 1 (luhn_digit 1 (input.getD k 0)) (k + 1) sa).1.2
      rw [hT, h1, h2]
      omega
    · have hT : ∃ out2 sd2 sa2, (scanT input (k + 1) out sd sa).2.1 =
          (scanT input k out2 sd2 sa2).2.1 := by
        by_cases hs : sa = 0 ∧ input.getD k 0 ≠ 32 ∧ input.getD k 0 ≠ 45
        · exact ⟨out, sd, k + 1, by rw [scanT_succ_delim input k out sd sa hd hs]⟩
        · exact ⟨out, sd, sa, by rw [scanT_succ_other input k out sd sa hd hs]⟩
      obtain ⟨out2, sd2, sa2, hT2⟩ := hT
      have h1 : Finset.sum (Finset.range 15)
            (fun d => ((walkMarks input (k + 1) (d + 1)).map wt).sum) ≤
          Finset.sum (Finset.range 15)
            (fun d => wt k + ((walkMarks input k (d + 1)).map wt).sum) :=
        Finset.sum_le_sum (fun d _ => markCost_other input wt k (d + 1) hd)
      have h2 : Finset.sum (Finset.range 15)
            (fun d => wt k + ((walkMarks input k (d + 1)).map wt).sum) =
          15 * wt k + Finset.sum (Finset.range 15)
            (fun d => ((walkMarks input k (d + 1)).map wt).sum) := by
        rw [Finset.sum_add_distrib, Finset.sum_const, Finset.card_range, smul_eq_mul]
      have h6 := ih out2 sd2 sa2
      rw [hT2]
      omega

theorem sum_indicator_eq_countP (l : List (Nat × Nat)) (m : Nat) :
    (l.map (fun v => if v.2 = m then 1 else 0)).sum = l.countP (fun v => decide (v.2 = m)) := by
  induction l with
  | nil => rfl
  | cons x xs ih =>
    rw [List.map_cons, List.sum_cons, ih, List.countP_cons]
    by_cases h : x.2 = m
    · simp [h]; omega
    · simp [h]

/-- C16: bounded rescanning work.  For every input of length `n`, the passes
through the body of the inner `while` loop, summed over all anchors of one call
of `filter`, number at most `16 * n`, and every buffer position `m` is visited
by at most 16 of these passes (so by the inner walks of at most 16 distinct
anchors), however many spaces and hyphens lie between the digits.  The passes
are the ghost list of `scanT`, whose other results are those of `scan`. -/
theorem C16_bounded_rescanning (input : List Nat) :
    (scanT input input.length input false 0).1 = scan input input.length input false 0 ∧
    (filterVisits input input input.length).length ≤ 16 * input.length ∧
    ∀ m, (filterVisits input input input.length).countP (fun v => decide (v.2 = m)) ≤ 16 := by
  refine ⟨scanT_fst input _ _ _ _, ?_, ?_⟩
  · have h := scanT_cost input (fun _ => 1) input.length input false 0
    have h1 : ((scanT input input.length input false 0).2.1.map (fun _ => 1)).sum =
        (filterVisits input input input.length).length := by
      unfold filterVisits
      simp
    have h2 : Finset.sum (Finset.range input.length) (fun _ => 1) = input.length := by
      simp
    rw [h1, h2] at h
    omega
  · intro m
    have h := scanT_cost input (fun x => if x = m then 1 else 0) input.length input false 0
    have h1 := sum_indicator_eq_countP (scanT input input.length input false 0).2.1 m
    have h2 : Finset.sum (Finset.range input.length) (fun x => if x = m then 1 else 0) ≤ 1 := by
      rw [Finset.sum_ite_eq']
      split_ifs <;> omega
    unfold filterVisits
    rw [h1] at h
    omega

/-! ## The retained tail -/

theorem region_blit (buf : List Nat) (off : Nat) (c : List Nat)
    (h : off + c.length ≤ buf.length) : region (blit buf off c) off c.length = c := by
  have hl : (blit buf off c).length = buf.length := blit_length _ _ _ h
  apply ext_getD
  · rw [region_length _ _ _ (by omega)]
  · intro i hi
    rw [region_length _ _ _ (by omega)] at hi
    rw [region_getD, if_pos hi, blit_getD _ _ _ _ h, if_neg (by omega), if_pos (by omega)]
    congr 1
    omega

theorem scanAnchor_eq (st : Pump) (c : List Nat)
    (hfit : st.start_pad + c.length ≤ st.input_buffer.length) :
    scanAnchor st c =
      (filter (blit st.output_buffer st.start_pad c) (blit st.input_buffer st.start_pad c)
        (c.length + st.start_pad)).2 := by
  unfold scanAnchor
  rw [region_blit _ _ _ hfit]

theorem nextPump_start_pad (st : Pump) (c : List Nat) :
    (nextPump st c).start_pad = st.start_pad + c.length - scanAnchor st c :=
  rfl

theorem scanAnchor_le (st : Pump) (c : List Nat)
    (hfit : st.start_pad + c.length ≤ st.input_buffer.length) :
    scanAnchor st c ≤ st.start_pad + c.length := by
  rw [scanAnchor_eq st c hfit, filter_snd]
  split_ifs
  · have := lastDelim_le (blit st.input_buffer st.start_pad c) (c.length + st.start_pad)
    omega
  · omega

/-- After a pass of the loop body the retained tail is made of the bytes that
followed the safe anchor in the input buffer, and these are digits, spaces and
hyphens only. -/
theorem nextPump_tail (C : Nat) (st : Pump) (c : List Nat)
    (hib : st.input_buffer.length = C) (hfit : st.start_pad + c.length ≤ C) :
    ∀ j, j < (nextPump st c).start_pad →
      (nextPump st c).input_buffer.getD j 0 =
        (blit st.input_buffer st.start_pad c).getD (scanAnchor st c + j) 0 ∧
      isRunByte ((nextPump st c).input_buffer.getD j 0) = true := by
  intro j hj
  have hle := scanAnchor_le st c (by omega)
  have hsa := scanAnchor_eq st c (by omega)
  have hib1 : (blit st.input_buffer st.start_pad c).length = C := by
    rw [blit_length _ _ _ (by omega), hib]
  rw [nextPump_start_pad] at hj
  have hget : (nextPump st c).input_buffer.getD j 0 =
      (blit st.input_buffer st.start_pad c).getD (scanAnchor st c + j) 0 := by
    rw [nextPump_eq st c C hib hfit]
    show (blit _ 0 _).getD j 0 = _
    rw [← hsa]
    have hr : (region (blit st.input_buffer st.start_pad c) (scanAnchor st c)
        (st.start_pad + c.length - scanAnchor st c)).length
        = st.start_pad + c.length - scanAnchor st c :=
      region_length _ _ _ (by omega)
    rw [blit_getD _ _ _ _ (by rw [hr]; omega), if_neg (by omega),
      if_pos (by rw [hr]; omega), region_getD, if_pos (by omega), Nat.sub_zero]
  refine ⟨hget, ?_⟩
  rw [hget]
  have hsnd := filter_snd (blit st.output_buffer st.start_pad c)
    (blit st.input_buffer st.start_pad c) (c.length + st.start_pad)
  rw [← hsa] at hsnd
  by_cases hdig : ∃ i, i < c.length + st.start_pad ∧
      isdigit ((blit st.input_buffer st.start_pad c).getD i 0) = true
  · rw [if_pos hdig] at hsnd
    apply (lastDelim_spec (blit st.input_buffer st.start_pad c)
      (c.length + st.start_pad)).2
    · omega
    · omega
  · rw [if_neg hdig] at hsnd
    omega

/-! ## Reachable states of the pump -/

theorem pumpStateAfter_cons (C : Nat) (c : List Nat) (rest : List (List Nat)) (st : Pump)
    (hc : c.length ≠ 0) (hfit : ¬ C - st.start_pad < c.length)
    (hcap : ¬ (nextPump st c).start_pad = C) :
    pumpStateAfter C (c :: rest) st = pumpStateAfter C rest (nextPump st c) := by
  rw [pumpStateAfter, if_neg hc, if_neg hfit, if_neg hcap]

/-- Every state the loop of `main` reaches satisfies the loop invariant, has
`start_pad < C`, and retains only digits, spaces and hyphens. -/
theorem pumpStateAfter_inv (C : Nat) :
    ∀ chunks S st0, PumpInv C S st0 → st0.start_pad < C →
      (∀ j, j < st0.start_pad → isRunByte (st0.input_buffer.getD j 0) = true) →
      ∀ st, pumpStateAfter C chunks st0 = some st →
        PumpInv C (S ++ chunks.flatten) st ∧ st.start_pad < C ∧
        (∀ j, j < st.start_pad → isRunByte (st.input_buffer.getD j 0) = true) := by
  intro chunks
  induction chunks with
  | nil =>
    intro S st0 hinv hlt hrun st hst
    rw [pumpStateAfter] at hst
    have : st0 = st := Option.some.inj hst
    subst this
    rw [List.flatten_nil, List.append_nil]
    exact ⟨hinv, hlt, hrun⟩
  | cons c rest ih =>
    intro S st0 hinv hlt hrun st hst
    by_cases hc : c.length = 0
    · rw [pumpStateAfter, if_pos hc] at hst
      exact Option.noConfusion hst
    · by_cases hfit : C - st0.start_pad < c.length
      · rw [pumpStateAfter, if_neg hc, if_pos hfit] at hst
        exact Option.noConfusion hst
      · by_cases hcap : (nextPump st0 c).start_pad = C
        · rw [pumpStateAfter, if_neg hc, if_neg hfit, if_pos hcap] at hst
          exact Option.noConfusion hst
        · rw [pumpStateAfter_cons C c rest st0 hc hfit hcap] at hst
          have hinv2 := nextPump_inv C S st0 c hinv (by omega)
          have hlt2 : (nextPump st0 c).start_pad < C := by
            have := hinv2.hpad
            omega
          have hrun2 := fun j hj => (nextPump_tail C st0 c hinv.hib (by omega) j hj).2
          have := ih (S ++ c) (nextPump st0 c) hinv2 hlt2 hrun2 st hst
          rw [List.flatten_cons, ← List.append_assoc]
          exact this

/-- Without a stretch of `C` digits, spaces and hyphens in the stream the loop
never stops with the capacity error. -/
theorem pumpLoop_no_capacity (C : Nat) :
    ∀ chunks S st, PumpInv C S st → (∀ c ∈ chunks, c ≠ []) →
      (∀ k, k + C ≤ (S ++ chunks.flatten).length →
        ∃ j, j < C ∧ isRunByte ((S ++ chunks.flatten).getD (k + j) 0) = false) →
      pumpLoop C chunks st = Outcome.unreadable ∨
        pumpLoop C chunks st = Outcome.finished (redacted (S ++ chunks.flatten)) := by
  intro chunks
  induction chunks with
  | nil =>
    intro S st hinv _ _
    right
    rw [pumpLoop, finish_inv C S st hinv, List.flatten_nil, List.append_nil]
  | cons c rest ih =>
    intro S st hinv hne hshort
    have hc : c.length ≠ 0 := by
      intro h
      exact hne c (List.mem_cons_self _ _) (List.length_eq_zero.1 h)
    have hassoc : S ++ (c :: rest).flatten = (S ++ c) ++ rest.flatten := by
      rw [List.flatten_cons, ← List.append_assoc]
    by_cases hfit : C - st.start_pad < c.length
    · left
      rw [pumpLoop, if_neg hc, if_pos hfit]
    · rw [pumpLoop_cons C c rest st hc hfit, hassoc]
      have hinv2 := nextPump_inv C S st c hinv (by omega)
      by_cases hcap : (nextPump st c).start_pad = C
      · exfalso
        have hlen := hinv2.hlen
        rw [hcap] at hlen
        obtain ⟨j, hj, hdel⟩ := hshort (nextPump st c).written.length (by
          rw [hassoc, List.length_append]
          omega)
        have htail := (nextPump_tail C st c hinv.hib (by omega) j (by omega)).2
        rw [hinv2.hin j (by omega)] at htail
        rw [hassoc, getD_append_left _ _ _ (by omega),
          Nat.add_comm (nextPump st c).written.length j, htail] at hdel
        exact absurd hdel (by simp)
      · rw [if_neg hcap]
        exact ih (S ++ c) (nextPump st c) hinv2
          (fun d hd => hne d (List.mem_cons_of_mem _ hd)) (by rw [← hassoc]; exact hshort)

/-! ## Claims about the capacity of the pump -/

/-- C11: the capacity error needs a pathologically long run.  For every
capacity `C ≥ 1`, every stream and every cutting of it into non-empty chunks,
if the stream contains no `C` consecutive bytes that are all digits, spaces or
hyphens, then the run never stops with the capacity error (`start_pad` never
reaches `C`), and when it reaches the end of the input it has written as many
bytes as it has read: unless a chunk exceeds what `read` was asked for, the run
ends with the redaction of the stream written. -/
theorem C11_capacity_error_needs_long_run (C : Nat) (_hC : 1 ≤ C)
    (chunks : List (List Nat)) (hne : ∀ c ∈ chunks, c ≠ [])
    (hshort : ∀ k, k + C ≤ chunks.flatten.length →
      ∃ j, j < C ∧ isRunByte (chunks.flatten.getD (k + j) 0) = false) :
    (∀ w, pump C chunks ≠ Outcome.capacityError w) ∧
    (∀ out, pump C chunks = Outcome.finished out → out.length = chunks.flatten.length) ∧
    (pump C chunks = Outcome.unreadable ∨
      pump C chunks = Outcome.finished (redacted chunks.flatten)) := by
  have h := pumpLoop_no_capacity C chunks [] (initPump C) (initPump_inv C) hne
    (by rw [List.nil_append]; exact hshort)
  rw [List.nil_append] at h
  have hp : pump C chunks = pumpLoop C chunks (initPump C) := rfl
  rw [← hp] at h
  refine ⟨?_, ?_, h⟩
  · intro w hw
    rcases h with h1 | h1
    · rw [h1] at hw; exact Outcome.noConfusion hw
    · rw [h1] at hw; exact Outcome.noConfusion hw
  · intro out hout
    rcases h with h1 | h1
    · rw [h1] at hout; exact Outcome.noConfusion hout
    · rw [h1] at hout
      rw [← Outcome.finished.inj hout, redacted_length]

/-- Witness of C11: `1;23;4` read as `1;2` and `3;4` with a buffer of 4 bytes. -/
theorem C11_capacity_error_needs_long_run_witness :
    (∀ c ∈ sampleShortRuns, c ≠ []) ∧
    (∀ w, pump 4 sampleShortRuns ≠ Outcome.capacityError w) ∧
    (∀ out, pump 4 sampleShortRuns = Outcome.finished out →
      out.length = sampleShortRuns.flatten.length) ∧
    (pump 4 sampleShortRuns = Outcome.unreadable ∨
      pump 4 sampleShortRuns = Outcome.finished (redacted sampleShortRuns.flatten)) ∧
    pump 4 sampleShortRuns = Outcome.finished [49, 59, 50, 51, 59, 52] :=
  ⟨by decide,
    (C11_capacity_error_needs_long_run 4 (by decide) sampleShortRuns (by decide)
      (by
        intro k hk
        have hk2 : k ≤ 2 := by
          have : sampleShortRuns.flatten.length = 6 := by decide
          omega
        interval_cases k <;> decide)).1,
    (C11_capacity_error_needs_long_run 4 (by decide) sampleShortRuns (by decide)
      (by
        intro k hk
        have hk2 : k ≤ 2 := by
          have : sampleShortRuns.flatten.length = 6 := by decide
          omega
        interval_cases k <;> decide)).2.1,
    (C11_capacity_error_needs_long_run 4 (by decide) sampleShortRuns (by decide)
      (by
        intro k hk
        have hk2 : k ≤ 2 := by
          have : sampleShortRuns.flatten.length = 6 := by decide
          omega
        interval_cases k <;> decide)).2.2,
    by decide⟩

/-- C18: the buffer-index invariant of the pump.  For every capacity `C ≥ 1`
and every sequence of reads, at the head of the loop both buffers have `C`
bytes and `0 ≤ start_pad < C`, so `read` is asked for at least 1 and at most
`C - start_pad` bytes, and the retained tail holds only digits, spaces and
hyphens.  For every chunk `read` can then deliver, `safe_anchor ≤ start_pad +
length ≤ C`, so `start_pad + length - safe_anchor` does not underflow, the
write of `output_buffer[0..safe_anchor)` and the source and destination of both
`memmove`s lie inside the buffers (which keep their `C` bytes), and the new
retained tail again holds only digits, spaces and hyphens. -/
theorem C18_buffer_index_invariant (C : Nat) (hC : 1 ≤ C) (chunks : List (List Nat))
    (st : Pump) (hst : pumpStateAfter C chunks (initPump C) = some st) :
    st.input_buffer.length = C ∧ st.output_buffer.length = C ∧
    st.start_pad < C ∧ 1 ≤ C - st.start_pad ∧
    (∀ j, j < st.start_pad → isRunByte (st.input_buffer.getD j 0) = true) ∧
    ∀ chunk : List Nat, 0 < chunk.length → chunk.length ≤ C - st.start_pad →
      scanAnchor st chunk ≤ st.start_pad + chunk.length ∧
      st.start_pad + chunk.length ≤ C ∧
      (nextPump st chunk).start_pad + scanAnchor st chunk = st.start_pad + chunk.length ∧
      scanAnchor st chunk + (nextPump st chunk).start_pad ≤ C ∧
      (nextPump st chunk).input_buffer.length = C ∧
      (nextPump st chunk).output_buffer.length = C ∧
      (∀ j, j < (nextPump st chunk).start_pad →
        isRunByte ((nextPump st chunk).input_buffer.getD j 0) = true) := by
  have h0 : (initPump C).start_pad < C := hC
  obtain ⟨hinv, hlt, hrun⟩ := pumpStateAfter_inv C chunks [] (initPump C) (initPump_inv C) h0
    (fun j hj => absurd hj (Nat.not_lt_zero _)) st hst
  refine ⟨hinv.hib, hinv.hob, hlt, by omega, hrun, ?_⟩
  intro chunk _ hfit
  have hfit2 : st.start_pad + chunk.length ≤ C := by omega
  have hle := scanAnchor_le st chunk (by rw [hinv.hib]; exact hfit2)
  have hinv2 := nextPump_inv C _ st chunk hinv hfit2
  have hsp := nextPump_start_pad st chunk
  refine ⟨hle, hfit2, by omega, by omega, hinv2.hib, hinv2.hob, ?_⟩
  exact fun j hj => (nextPump_tail C st chunk hinv.hib hfit2 j hj).2

/-- Witness of C18: the state after `1;2` and `3;4` were read into a buffer of 4
bytes retains the one byte `4`. -/
theorem C18_buffer_index_invariant_witness :
    (pumpStateAfter 4 sampleShortRuns (initPump 4)).isSome = true ∧
    ∀ st, pumpStateAfter 4 sampleShortRuns (initPump 4) = some st →
      st.start_pad < 4 ∧ st.input_buffer.length = 4 ∧
      ∀ j, j < st.start_pad → isRunByte (st.input_buffer.getD j 0) = true :=
  ⟨by decide, fun st hst =>
    ⟨(C18_buffer_index_invariant 4 (by decide) sampleShortRuns st hst).2.2.1,
      (C18_buffer_index_invariant 4 (by decide) sampleShortRuns st hst).1,
      (C18_buffer_index_invariant 4 (by decide) sampleShortRuns st hst).2.2.2.2.1⟩⟩

/-! ## A valid region without digits -/

/-- Every state the loop of `main` reaches satisfies the loop invariant. -/
theorem pumpStateAfter_pumpInv (C : Nat) :
    ∀ chunks S st0, PumpInv C S st0 →
      ∀ st, pumpStateAfter C chunks st0 = some st → PumpInv C (S ++ chunks.flatten) st := by
  intro chunks
  induction chunks with
  | nil =>
    intro S st0 hinv st hst
    rw [pumpStateAfter] at hst
    have : st0 = st := Option.some.inj hst
    subst this
    rw [List.flatten_nil, List.append_nil]
    exact hinv
  | cons c rest ih =>
    intro S st0 hinv st hst
    by_cases hc : c.length = 0
    · rw [pumpStateAfter, if_pos hc] at hst
      exact Option.noConfusion hst
    · by_cases hfit : C - st0.start_pad < c.length
      · rw [pumpStateAfter, if_neg hc, if_pos hfit] at hst
        exact Option.noConfusion hst
      · by_cases hcap : (nextPump st0 c).start_pad = C
        · rw [pumpStateAfter, if_neg hc, if_neg hfit, if_pos hcap] at hst
          exact Option.noConfusion hst
        · rw [pumpStateAfter_cons C c rest st0 hc hfit hcap] at hst
          have hpad := hinv.hpad
          have hinv2 := nextPump_inv C S st0 c hinv (by omega)
          have := ih (S ++ c) (nextPump st0 c) hinv2 st hst
          rw [List.flatten_cons, ← List.append_assoc]
          exact this

/-- In a state that satisfies the loop invariant, a pass whose valid region
(the retained tail followed by the new chunk) holds no digit writes the whole
region, byte for byte as it stands in the input buffer, and retains nothing. -/
theorem nextPump_digit_free_region (C : Nat) (S : List Nat) (st : Pump) (chunk : List Nat)
    (hinv : PumpInv C S st) (hfit : st.start_pad + chunk.length ≤ C)
    (hnd : ∀ j, j < st.start_pad + chunk.length →
      isdigit ((blit st.input_buffer st.start_pad chunk).getD j 0) = false) :
    (nextPump st chunk).written =
      st.written ++
        region (blit st.input_buffer st.start_pad chunk) 0 (st.start_pad + chunk.length) ∧
    (nextPump st chunk).start_pad = 0 := by
  obtain ⟨hib, hob, _, hlen, hin, hout, _, _⟩ := hinv
  have hib1 : (blit st.input_buffer st.start_pad chunk).length = C := by
    rw [blit_length _ _ _ (by omega), hib]
  have hob1 : (blit st.output_buffer st.start_pad chunk).length = C := by
    rw [blit_length _ _ _ (by omega), hob]
  have hnodig : ¬ ∃ j, j < chunk.length + st.start_pad ∧
      isdigit ((blit st.input_buffer st.start_pad chunk).getD j 0) = true := by
    rintro ⟨j, hj, hd⟩
    rw [hnd j (by omega)] at hd
    exact absurd hd (by simp)
  have hsnd : (filter (blit st.output_buffer st.start_pad chunk)
      (blit st.input_buffer st.start_pad chunk) (chunk.length + st.start_pad)).2
      = chunk.length + st.start_pad := by
    rw [filter_snd, if_neg hnodig]
  have hpad : (nextPump st chunk).start_pad = 0 := by
    rw [nextPump_start_pad, scanAnchor_eq st chunk (by omega), hsnd]
    omega
  refine ⟨?_, hpad⟩
  rw [nextPump_eq st chunk C hib hfit]
  show st.written ++ region _ 0 _ = _
  rw [hsnd]
  congr 1
  have hfl : (filter (blit st.output_buffer st.start_pad chunk)
      (blit st.input_buffer st.start_pad chunk) (chunk.length + st.start_pad)).1.length
      = C := by
    rw [filter_length, hob1]
  apply ext_getD
  · rw [region_length _ _ _ (by omega), region_length _ _ _ (by omega)]
    omega
  · intro j hj
    rw [region_length _ _ _ (by omega)] at hj
    rw [region_getD, region_getD, if_pos hj, if_pos (by omega), Nat.zero_add]
    have hnm : ¬ Masked (blit st.input_buffer st.start_pad chunk)
        (chunk.length + st.start_pad) j := by
      intro hm
      have := hm.1
      rw [hnd j (by omega)] at this
      exact absurd this (by simp)
    rw [(filter_getD _ _ (chunk.length + st.start_pad) j (by omega) (by omega)).2 hnm,
      blit_getD _ _ _ _ (by omega), blit_getD _ _ _ _ (by omega)]
    by_cases hjt : j < st.start_pad
    · rw [if_pos hjt, if_pos hjt, hout j hjt, hin j hjt]
      rcases redacted_cases S (j + st.written.length) with h | ⟨hm, _⟩
      · exact h
      · exfalso
        have hd := hm.1
        rw [← hin j hjt] at hd
        have h2 := hnd j (by omega)
        rw [blit_getD _ _ _ _ (by omega), if_pos hjt, hd] at h2
        exact absurd h2 (by simp)
    · rw [if_neg hjt, if_neg hjt, if_pos (by omega), if_pos (by omega)]

/-! ## Claim about input without digits -/

/-- C10: digit-free input is flushed whole and untouched.  For every input
that holds no digit, `filter` returns the length of the input and leaves the
output equal to the input.  So the pump writes such input at once and retains
nothing: in every state the loop of `main` can reach, when after the read the
valid region of the buffer (the retained tail followed by the new chunk) is
this input, the pass appends exactly the input to what was written and ends
with `start_pad = 0`; in particular so does the first pass when the input is
the first chunk. -/
theorem C10_digit_free_flushed_whole (input : List Nat)
    (hnd : ∀ c ∈ input, isdigit c = false) :
    filter input input input.length = (input, input.length) ∧
    (∀ C, input.length ≤ C →
      (nextPump (initPump C) input).written = input ∧
      (nextPump (initPump C) input).start_pad = 0) ∧
    (∀ (C : Nat) (chunks : List (List Nat)) (st : Pump) (chunk : List Nat),
      pumpStateAfter C chunks (initPump C) = some st →
      chunk.length ≤ C - st.start_pad →
      region (blit st.input_buffer st.start_pad chunk) 0 (st.start_pad + chunk.length)
        = input →
      (nextPump st chunk).written = st.written ++ input ∧
      (nextPump st chunk).start_pad = 0) := by
  refine ⟨filter_digit_free input hnd, fun C hC => nextPump_digit_free C input hnd hC, ?_⟩
  intro C chunks st chunk hst hfit hreg
  have hinv := pumpStateAfter_pumpInv C chunks [] (initPump C) (initPump_inv C) st hst
  have hpad := hinv.hpad
  have hfit2 : st.start_pad + chunk.length ≤ C := by omega
  have hib1 : (blit st.input_buffer st.start_pad chunk).length = C := by
    rw [blit_length _ _ _ (by rw [hinv.hib]; omega), hinv.hib]
  have hlen : input.length = st.start_pad + chunk.length := by
    rw [← hreg, region_length _ _ _ (by omega)]
  have hnd2 : ∀ j, j < st.start_pad + chunk.length →
      isdigit ((blit st.input_buffer st.start_pad chunk).getD j 0) = false := by
    intro j hj
    have h1 : input.getD j 0 = (blit st.input_buffer st.start_pad chunk).getD j 0 := by
      rw [← hreg, region_getD, if_pos hj, Nat.zero_add]
    rw [← h1]
    exact hnd _ (getD_mem input j (by omega))
  have h := nextPump_digit_free_region C _ st chunk hinv hfit2 hnd2
  rw [hreg] at h
  exact h

/-- Witness of C10: `no digits here` as the whole input and as the first chunk;
and two spaces as the valid region of a later pass, after `1; ` was read and
its last space retained. -/
theorem C10_digit_free_flushed_whole_witness :
    (∀ c ∈ sampleText, isdigit c = false) ∧
    filter sampleText sampleText sampleText.length = (sampleText, sampleText.length) ∧
    (∀ C, sampleText.length ≤ C →
      (nextPump (initPump C) sampleText).written = sampleText ∧
      (nextPump (initPump C) sampleText).start_pad = 0) ∧
    (nextPump (initPump 8) [49, 59, 32]).start_pad = 1 ∧
    (nextPump (initPump 8) [49, 59, 32]).written = [49, 59] ∧
    (nextPump (nextPump (initPump 8) [49, 59, 32]) [32]).written = [49, 59] ++ [32, 32] ∧
    (nextPump (nextPump (initPump 8) [49, 59, 32]) [32]).start_pad = 0 :=
  ⟨by decide, (C10_digit_free_flushed_whole sampleText (by decide)).1,
    (C10_digit_free_flushed_whole sampleText (by decide)).2.1,
    by decide, by decide,
    (C10_digit_free_flushed_whole [32, 32] (by decide)).2.2 8 sampleRetainSpace
      (nextPump (initPump 8) [49, 59, 32]) [32] (by rfl) (by decide) (by decide)⟩

end Luhn
